import Mathlib

/-!
# gotag: the tag-directive engine of `internal/manipulator/manipulator.go`

A shallow embedding of `parseTag`, `buildTag`, `defaultTagValue`, `fieldName`,
`confirmUpdate` and of the per-field body of `ProcessFile` (delete, add, overwrite, rebuild),
of `ParseTarget` of `internal/parser/parser.go` and of `splitCommaSeparated` of `cmd/main.go`,
followed by theorems about them.

Modelling choices.

* A Go `string` is a list of Unicode scalar values (`Str`), that is a valid UTF-8 string.
  `sort.Strings` compares bytes; on UTF-8 text that order is the lexicographic order of the
  code points, which is the order of `List Char`.
* A Go `map[string]string` is a `Finmap`: a finite map with unique keys and no iteration
  order. `for key, v := range m` of the overwrite loop visits the entries in an unspecified
  order, so the loop is a fold over an arbitrary sequence of entries.
* Standard input is the list of lines still to be read, each of them a line that
  `scanner.Scan()` delivers, one per call; standard output is the list of texts printed so far.
* `os.Stat` is a function from paths to what `ParseTarget` asks of the result.
* Functions of other packages (`strcase.ToSnake`, `strings.ToLower`, ...) are fields of `Libs`.
-/

namespace Gotag

/-- A Go string. -/
abbrev Str := List Char

/-- A Go `map[string]string`. -/
abbrev TagMap := Finmap (fun _ : Str => Str)

/-- Library functions used by the manipulator and living outside the repository. -/
structure Libs where
  /-- `strcase.ToLowerCamel`. -/
  toLowerCamel : Str → Str
  /-- `strcase.ToSnake`. -/
  toSnake : Str → Str
  /-- `strcase.ToKebab`. -/
  toKebab : Str → Str
  /-- `strings.ToLower`. -/
  toLower : Str → Str
  /-- `strings.TrimSpace`. -/
  trimSpace : Str → Str

/-- The part of `ast.Field` the manipulator reads and writes: the names and the tag literal. -/
structure Field where
  names : List Str
  tag : Option Str
deriving DecidableEq

/-! ## The tag codec -/

/-- The class `\w` of Go regular expressions: `[0-9A-Za-z_]`. -/
def isWordChar (c : Char) : Bool := c.isAlphanum || c == '_'

/-- The class `[^"]`. -/
def isNotQuote (c : Char) : Bool := c != '"'

/-- One attempt to match `(\w+):"([^"]*)"` at the head of `s`; the result is the two
submatches and the text after the match. Both repetitions are greedy and what follows each
of them (`:` after `\w+`, `"` after `[^"]*`) is outside the repeated class, so the only
candidate is the longest run. -/
def matchAt (s : Str) : Option (Str × Str × Str) :=
  match s.takeWhile isWordChar, s.dropWhile isWordChar with
  | _ :: _, ':' :: '"' :: t =>
    match t.dropWhile isNotQuote with
    | '"' :: rest => some (s.takeWhile isWordChar, t.takeWhile isNotQuote, rest)
    | _ => none
  | _, _ => none

/-- `re.FindAllStringSubmatch(tag, -1)`: the leftmost match, then the leftmost match in what
follows it, and so on. `fuel` bounds the number of positions tried. -/
def findAllSubmatch : Nat → Str → List (Str × Str)
  | 0, _ => []
  | _, [] => []
  | fuel + 1, c :: cs =>
    match matchAt (c :: cs) with
    | some (k, v, rest) => (k, v) :: findAllSubmatch fuel rest
    | none => findAllSubmatch fuel cs

/-- `parseTag`: every match stores its value under its key, later matches winning. -/
def parseTag (tag : Str) : TagMap :=
  (findAllSubmatch tag.length tag).foldl (fun result m => result.insert m.1 m.2) ∅

/-- `sort.Strings` on the keys collected from a map. -/
def sortStrings (keys : Finset Str) : List Str :=
  Quot.liftOn keys.val (fun l => l.insertionSort (· ≤ ·)) (fun a b (h : a.Perm b) =>
    List.eq_of_perm_of_sorted
      (((List.perm_insertionSort _ a).trans h).trans (List.perm_insertionSort _ b).symm)
      (List.sorted_insertionSort _ a) (List.sorted_insertionSort _ b))

/-- The text `key:"value"` that `fmt.Sprintf` produces for one entry. -/
def renderEntry (key value : Str) : Str :=
  key ++ ":\"".toList ++ value ++ "\"".toList

/-- `buildTag`. -/
def buildTag (tags : TagMap) : Str :=
  " ".toList.intercalate
    ((sortStrings tags.keys).map (fun key => renderEntry key ((tags.lookup key).getD [])))

/-! ## Default values -/

/-- `fieldName`. -/
def fieldName (field : Field) : Str :=
  match field.names with
  | name :: _ => name
  | [] => []

/-- `defaultTagValue`. -/
def defaultTagValue (L : Libs) (field : Field) (caseStyle : Str) : Str :=
  let name := fieldName field
  let s := L.toLower caseStyle
  if s = "snake".toList ∨ s = "snake_case".toList then L.toSnake name
  else if s = "kebab".toList ∨ s = "kebab-case".toList then L.toKebab name
  else L.toLowerCamel name

/-! ## The state of one field's processing -/

/-- What the body of the field loop reads and writes: the tag map, the `changed` flag of
`ProcessFile`, and the console. -/
structure State where
  tags : TagMap
  changed : Bool
  stdin : List Str
  stdout : List Str
deriving DecidableEq

/-- `fmt.Print`. -/
def print (st : State) (text : Str) : State :=
  { st with stdout := st.stdout ++ [text] }

/-- A fresh scanner on standard input, one `Scan()` and the `Text()` of a successful scan. -/
def scanLine (st : State) : Option Str × State :=
  match st.stdin with
  | [] => (none, st)
  | line :: rest => (some line, { st with stdin := rest })

/-- `confirmUpdate`. -/
def confirmUpdate (L : Libs) (prompt : Str) (st : State) : Bool × State :=
  match scanLine (print st prompt) with
  | (some line, st1) =>
    let response := L.toLower (L.trimSpace line)
    (response = "y".toList || response = "yes".toList, st1)
  | (none, st1) => (false, st1)

/-- The question asked by an add directive about a key holding another value. -/
def addConfirmText (name key current defaultVal : Str) : Str :=
  "Field '".toList ++ name ++ "': tag '".toList ++ key ++ "' value is '".toList ++ current ++
    "'. Update to '".toList ++ defaultVal ++ "'? (y/n): ".toList

/-- The request for the value of a new key. -/
def addValueText (key name defaultVal : Str) : Str :=
  "Enter value for new tag '".toList ++ key ++ "' in field '".toList ++ name ++
    "' (default ".toList ++ defaultVal ++ "): ".toList

/-- The question asked by an overwrite directive without a value. -/
def overwriteConfirmText (name key current defaultVal : Str) : Str :=
  "Field '".toList ++ name ++ "': tag '".toList ++ key ++ "' value is '".toList ++ current ++
    "'. Overwrite with default '".toList ++ defaultVal ++ "'? (y/n): ".toList

/-! ## The three directive loops -/

/-- Body of the delete loop. -/
def deleteStep (st : State) (key : Str) : State :=
  if key ∈ st.tags then { st with tags := st.tags.erase key, changed := true } else st

/-- The `update` flag of an add directive whose key holds the value `current`, other than
the default: `force`, or the answer to the confirmation when interactive and not forced. -/
def addUpdate (L : Libs) (field : Field) (caseStyle : Str) (interactive force : Bool)
    (st : State) (key current : Str) : Bool × State :=
  if !force && interactive then
    confirmUpdate L
      (addConfirmText (fieldName field) key current (defaultTagValue L field caseStyle)) st
  else (force, st)

/-- The `newVal` of an add directive whose key is absent, before the default is filled in:
the line read from the console when interactive, the empty string otherwise. -/
def addNewVal (L : Libs) (field : Field) (caseStyle : Str) (interactive : Bool)
    (st : State) (key : Str) : Str × State :=
  if interactive then
    match scanLine (print st
      (addValueText key (fieldName field) (defaultTagValue L field caseStyle))) with
    | (some line, st1) => (line, st1)
    | (none, st1) => ([], st1)
  else ([], st)

/-- Body of the add loop. -/
def addStep (L : Libs) (field : Field) (caseStyle : Str) (interactive force : Bool)
    (st : State) (key : Str) : State :=
  let defaultVal := defaultTagValue L field caseStyle
  match st.tags.lookup key with
  | some current =>
    if current ≠ defaultVal then
      let r := addUpdate L field caseStyle interactive force st key current
      if r.1 then { r.2 with tags := r.2.tags.insert key defaultVal, changed := true } else r.2
    else st
  | none =>
    let r := addNewVal L field caseStyle interactive st key
    let newVal := if r.1 = [] then defaultVal else r.1
    { r.2 with tags := r.2.tags.insert key newVal, changed := true }

/-- The guard of an overwrite directive: `false` when the loop body ends at `continue`, that
is when the confirmation was asked for and declined. -/
def overwriteGo (L : Libs) (field : Field) (caseStyle : Str) (interactive force : Bool)
    (st : State) (key newVal current : Str) : Bool × State :=
  if interactive && !force && newVal = [] && current ≠ defaultTagValue L field caseStyle then
    confirmUpdate L
      (overwriteConfirmText (fieldName field) key current (defaultTagValue L field caseStyle)) st
  else (true, st)

/-- Body of the overwrite loop, for the entry `key ↦ newVal` of `overwriteMap`. -/
def overwriteStep (L : Libs) (field : Field) (caseStyle : Str) (interactive force : Bool)
    (st : State) (entry : Str × Str) : State :=
  let key := entry.1
  let newVal := entry.2
  match st.tags.lookup key with
  | none => st
  | some current =>
    let r := overwriteGo L field caseStyle interactive force st key newVal current
    if r.1 then
      let newVal := if newVal = [] then defaultTagValue L field caseStyle else newVal
      if current ≠ newVal then
        { r.2 with tags := r.2.tags.insert key newVal, changed := true }
      else r.2
    else r.2

/-- The value an overwrite directive stores: its `newVal`, or `defaultTagValue` when that is
empty. -/
def overwriteNewVal (L : Libs) (field : Field) (caseStyle : Str) (newVal : Str) : Str :=
  if newVal = [] then defaultTagValue L field caseStyle else newVal

/-- The delete loop. -/
def deleteLoop (deleteTags : List Str) (st : State) : State :=
  deleteTags.foldl deleteStep st

/-- The add loop. -/
def addLoop (L : Libs) (field : Field) (caseStyle : Str) (interactive force : Bool)
    (addTags : List Str) (st : State) : State :=
  addTags.foldl (addStep L field caseStyle interactive force) st

/-- The overwrite loop; `entries` is the sequence in which `range overwriteMap` yields the
entries of the map. -/
def overwriteLoop (L : Libs) (field : Field) (caseStyle : Str) (interactive force : Bool)
    (entries : List (Str × Str)) (st : State) : State :=
  entries.foldl (overwriteStep L field caseStyle interactive force) st

/-- The directives applied to a field's tag map: delete, then add, then overwrite. -/
def resolve (L : Libs) (field : Field) (caseStyle : Str) (interactive force : Bool)
    (addTags deleteTags : List Str) (entries : List (Str × Str)) (st : State) : State :=
  overwriteLoop L field caseStyle interactive force entries
    (addLoop L field caseStyle interactive force addTags (deleteLoop deleteTags st))

/-! ## The overwrite directives and the field as a whole -/

/-- `strings.SplitN(ot, "=", 2)` read as key (`parts[0]`) and value (`parts[1]`, or the empty
string when there is no `=`). -/
def splitOverwrite (ot : Str) : Str × Str :=
  (ot.takeWhile (fun c => c != '='), (ot.dropWhile (fun c => c != '=')).drop 1)

/-- The map `overwriteMap` built from the overwrite directives. -/
def overwriteMap (overwriteTags : List Str) : TagMap :=
  overwriteTags.foldl (fun m ot => m.insert (splitOverwrite ot).1 (splitOverwrite ot).2) ∅

/-- A sequence in which `range m` may yield the entries of `m`: every entry once. -/
def IsRangeOf (m : TagMap) (entries : List (Str × Str)) : Prop :=
  (entries.map Prod.fst).Nodup ∧ ∀ k v, (k, v) ∈ entries ↔ m.lookup k = some v

/-- `strings.Trim(s, "\x60")`: the back quotes at both ends removed. -/
def trimBackquote (s : Str) : Str :=
  ((s.dropWhile (fun c => c == '\x60')).reverse.dropWhile (fun c => c == '\x60')).reverse

/-- The tag string read from a field. -/
def tagValue (field : Field) : Str :=
  match field.tag with
  | some lit => trimBackquote lit
  | none => []

/-- The body of the loop over `structType.Fields.List`: the field with its new tag, and the
state after it. `changed` and the console come from the fields processed before. -/
def processField (L : Libs) (caseStyle : Str) (interactive force : Bool)
    (addTags deleteTags : List Str) (entries : List (Str × Str))
    (field : Field) (changed : Bool) (stdin stdout : List Str) : Field × State :=
  let st := resolve L field caseStyle interactive force addTags deleteTags entries
    { tags := parseTag (tagValue field), changed := changed, stdin := stdin, stdout := stdout }
  let newTag := buildTag st.tags
  if newTag = [] then ({ field with tag := none }, st)
  else ({ field with tag := some ("\x60".toList ++ newTag ++ "\x60".toList) }, st)

/-! ## A concrete library for closed examples -/

/-- Lower-casing of the ASCII letters; `strings.ToLower` on ASCII text. -/
def asciiLower (s : Str) : Str := s.map Char.toLower

/-- Removal of ASCII white space at both ends; `strings.TrimSpace` on ASCII text. -/
def asciiTrim (s : Str) : Str :=
  ((s.dropWhile Char.isWhitespace).reverse.dropWhile Char.isWhitespace).reverse

/-- A stand-in for the libraries on single-word ASCII identifiers such as `Name` and `Age`,
where the three conversions of strcase all give the lower-cased word. -/
def wordLibs : Libs where
  toLowerCamel := fun s => match s with
    | [] => []
    | c :: cs => c.toLower :: cs
  toSnake := asciiLower
  toKebab := asciiLower
  toLower := asciiLower
  trimSpace := asciiTrim

/-- The field `Name string` without a tag. -/
def nameField : Field := { names := ["Name".toList], tag := none }

/-- The state in which the directives are resolved for a field whose tag string is `tag`,
when no field has changed yet, the console holds the lines `stdin` and nothing was printed. -/
def start (tag : Str) (stdin : List Str) : State :=
  { tags := parseTag tag, changed := false, stdin := stdin, stdout := [] }

/-- The state `st` with another console. -/
def withConsole (st : State) (stdin stdout : List Str) : State :=
  { st with stdin := stdin, stdout := stdout }

/-! ## The command line and the target -/

/-- `strings.Split(s, sep)` for a separator of one character. -/
def splitSep (sep : Char) : Str → List Str
  | [] => [[]]
  | c :: cs =>
    if c = sep then [] :: splitSep sep cs
    else
      match splitSep sep cs with
      | part :: parts => (c :: part) :: parts
      | [] => [[c]]

/-- `splitCommaSeparated` of `cmd/main.go`: the parts of every flag value, trimmed, the empty
ones dropped. -/
def splitCommaSeparated (L : Libs) (input : List Str) : List Str :=
  ((input.map (splitSep ',')).flatten.map L.trimSpace).filter (fun part => part ≠ [])

/-- The test of `ProcessFile` that makes the loop over type declarations `continue`:
`targetStruct != "" && typeSpec.Name.Name != targetStruct`. -/
def skipsType (targetStruct name : Str) : Bool :=
  targetStruct ≠ [] && name ≠ targetStruct

/-- `TargetType`. -/
inductive TargetType where
  | TargetTypeStruct
  | TargetTypeFile
  | TargetTypeDirectory
deriving DecidableEq

/-- `TargetInfo`; the field `Type` of the source is `targetType`. -/
structure TargetInfo where
  targetType : TargetType
  FilePath : Str
  StructName : Str
deriving DecidableEq

/-- What `ParseTarget` asks of the `os.FileInfo` that `os.Stat` returns. -/
structure FileInfo where
  /-- `info.Mode().IsRegular()`. -/
  isRegular : Bool
  /-- `info.IsDir()`. -/
  isDir : Bool
deriving DecidableEq

/-- The file system as `os.Stat` shows it: `none` where `os.Stat` returns an error. -/
abbrev FileSystem := Str → Option FileInfo

/-- The errors `ParseTarget` returns. -/
inductive TargetError where
  /-- `target cannot be empty`. -/
  | emptyTarget
  /-- `invalid target format for struct`. -/
  | invalidStructFormat
  /-- The error of `os.Stat` on the path. -/
  | statFailed (path : Str)
  /-- `invalid target type`. -/
  | invalidTargetType
deriving DecidableEq

/-- `filepath.Ext` with `/` as the path separator: the text from the last dot of the last
element of the path, empty when that element has no dot. -/
def ext (path : Str) : Str :=
  let last := path.reverse.takeWhile (fun c => c != '/')
  if '.' ∈ last then '.' :: (last.takeWhile (fun c => c != '.')).reverse else []

/-- `ParseTarget`. -/
def ParseTarget (fs : FileSystem) (target : Str) : Except TargetError TargetInfo :=
  if target = [] then .error .emptyTarget
  else if '@' ∈ target then
    match splitSep '@' target with
    | [filePath, structName] =>
      match fs filePath with
      | none => .error (.statFailed filePath)
      | some _ =>
        .ok { targetType := .TargetTypeStruct, FilePath := filePath, StructName := structName }
    | _ => .error .invalidStructFormat
  else
    match fs target with
    | none => .error (.statFailed target)
    | some info =>
      if info.isRegular && ext target = ".go".toList then
        .ok { targetType := .TargetTypeFile, FilePath := target, StructName := [] }
      else if info.isDir then
        .ok { targetType := .TargetTypeDirectory, FilePath := target, StructName := [] }
      else .error .invalidTargetType

/-- A file system that holds the regular file `temp_test.go` and nothing else. -/
def tempTestFs : FileSystem :=
  fun path => if path = "temp_test.go".toList then some { isRegular := true, isDir := false }
    else none

/-- A tag map that `parseTag` reads back from what `buildTag` writes: the keys are non-empty
words over `[0-9A-Za-z_]` and the values hold no double quote. -/
def Parsable (m : TagMap) : Prop :=
  ∀ k v, m.lookup k = some v → k ≠ [] ∧ (∀ c ∈ k, isWordChar c = true) ∧ '"' ∉ v

/-! ## The codec -/

theorem takeWhile_append_stop (p : Char → Bool) (k r : Str) (x : Char)
    (hk : ∀ c ∈ k, p c = true) (hx : p x = false) :
    (k ++ x :: r).takeWhile p = k ∧ (k ++ x :: r).dropWhile p = x :: r := by
  induction k with
  | nil => simp [List.takeWhile, List.dropWhile, hx]
  | cons c cs ih =>
    have hc : p c = true := hk c (List.mem_cons_self _ _)
    have ih' := ih (fun d hd => hk d (List.mem_cons_of_mem _ hd))
    simp [List.takeWhile, List.dropWhile, hc, ih'.1, ih'.2]

theorem renderEntry_append (k v rest : Str) :
    renderEntry k v ++ rest = k ++ ':' :: '"' :: (v ++ '"' :: rest) := by
  have h1 : ":\"".toList = [':', '"'] := rfl
  have h2 : "\"".toList = ['"'] := rfl
  simp [renderEntry, h1, h2]

theorem matchAt_renderEntry (k v rest : Str) (hne : k ≠ [])
    (hk : ∀ c ∈ k, isWordChar c = true) (hv : '"' ∉ v) :
    matchAt (renderEntry k v ++ rest) = some (k, v, rest) := by
  have h1 := takeWhile_append_stop isWordChar k ('"' :: (v ++ '"' :: rest)) ':' hk (by decide)
  have h2 := takeWhile_append_stop isNotQuote v rest '"'
    (fun c hc => by
      have : c ≠ '"' := fun e => hv (e ▸ hc)
      simp [isNotQuote, this]) (by decide)
  rw [renderEntry_append]
  unfold matchAt
  rw [h1.1, h1.2]
  cases k with
  | nil => exact absurd rfl hne
  | cons c cs => simp only [h2.1, h2.2]

theorem matchAt_length (s k v rest : Str) (h : matchAt s = some (k, v, rest)) :
    rest.length < s.length := by
  unfold matchAt at h
  split at h
  · rename_i a b t h1 h2
    split at h
    · rename_i rest' h3
      have e1 := List.takeWhile_append_dropWhile isWordChar s
      have e2 := List.takeWhile_append_dropWhile isNotQuote t
      rw [h2] at e1
      rw [h3] at e2
      simp only [Option.some.injEq, Prod.mk.injEq] at h
      obtain ⟨-, -, rfl⟩ := h
      rw [← e1, ← e2]
      simp only [List.length_append, List.length_cons]
      omega
    · exact absurd h (by simp)
  · exact absurd h (by simp)

theorem findAllSubmatch_nil (n : Nat) : findAllSubmatch n [] = [] := by
  cases n <;> rfl

/-- The fuel `parseTag` gives is enough: more fuel finds the same matches. -/
theorem findAllSubmatch_fuel (n m : Nat) (s : Str) (hn : s.length ≤ n) (hm : s.length ≤ m) :
    findAllSubmatch n s = findAllSubmatch m s := by
  induction n generalizing m s with
  | zero =>
    have : s = [] := List.length_eq_zero.mp (Nat.le_zero.mp hn)
    subst this
    rw [findAllSubmatch_nil, findAllSubmatch_nil]
  | succ n ih =>
    cases s with
    | nil => rw [findAllSubmatch_nil, findAllSubmatch_nil]
    | cons c cs =>
      cases m with
      | zero => simp at hm
      | succ m =>
        simp only [List.length_cons, Nat.add_le_add_iff_right] at hn hm
        unfold findAllSubmatch
        cases h : matchAt (c :: cs) with
        | none => exact ih m cs hn hm
        | some r =>
          obtain ⟨k, v, rest⟩ := r
          have hl := matchAt_length _ _ _ _ h
          simp only [List.length_cons] at hl
          simp only
          rw [ih m rest (by omega) (by omega)]
theorem matchAt_nil : matchAt [] = none := rfl

theorem matchAt_space (t : Str) : matchAt (' ' :: t) = none := by
  have h : isWordChar ' ' = false := by decide
  simp [matchAt, List.takeWhile, h]

theorem findAllSubmatch_of_match (n : Nat) (s k v rest : Str)
    (h : matchAt s = some (k, v, rest)) (hn : s.length ≤ n) :
    findAllSubmatch n s = (k, v) :: findAllSubmatch (n - 1) rest := by
  cases s with
  | nil => rw [matchAt_nil] at h; exact absurd h (by simp)
  | cons c cs =>
    cases n with
    | zero => simp at hn
    | succ n => simp [findAllSubmatch, h]

theorem findAllSubmatch_space (n : Nat) (t : Str) :
    findAllSubmatch (n + 1) (' ' :: t) = findAllSubmatch n t := by
  simp [findAllSubmatch, matchAt_space]

theorem intercalate_two (sep x y : Str) (l : List Str) :
    sep.intercalate (x :: y :: l) = x ++ (sep ++ sep.intercalate (y :: l)) := by
  simp [List.intercalate, List.intersperse]

theorem intercalate_one (sep x : Str) : sep.intercalate [x] = x := by
  simp [List.intercalate, List.intersperse]

theorem renderEntry_length (k v : Str) : (renderEntry k v).length = k.length + v.length + 3 := by
  have h1 : ":\"".toList = [':', '"'] := rfl
  have h2 : "\"".toList = ['"'] := rfl
  simp [renderEntry, h1, h2]; omega

/-- The matches found in a tag string written by `buildTag` are the entries it was written
from, when the keys are words and the values hold no double quote. -/
theorem findAllSubmatch_join (es : List (Str × Str))
    (h : ∀ e ∈ es, e.1 ≠ [] ∧ (∀ c ∈ e.1, isWordChar c = true) ∧ '"' ∉ e.2) (n : Nat)
    (hn : (" ".toList.intercalate (es.map (fun e => renderEntry e.1 e.2))).length ≤ n) :
    findAllSubmatch n (" ".toList.intercalate (es.map (fun e => renderEntry e.1 e.2))) = es := by
  induction es generalizing n with
  | nil => exact findAllSubmatch_nil n
  | cons e rest ih =>
    obtain ⟨h1, h2, h3⟩ := h e (List.mem_cons_self _ _)
    cases rest with
    | nil =>
      simp only [List.map_cons, List.map_nil, intercalate_one] at hn ⊢
      have hm := matchAt_renderEntry e.1 e.2 [] h1 h2 h3
      rw [List.append_nil] at hm
      rw [findAllSubmatch_of_match n _ _ _ _ hm hn, findAllSubmatch_nil]
    | cons e' rest' =>
      have hsp : " ".toList = [' '] := rfl
      have ih' := ih (fun x hx => h x (List.mem_cons_of_mem _ hx))
      simp only [List.map_cons, intercalate_two, hsp, List.singleton_append] at hn ih' ⊢
      have hm := matchAt_renderEntry e.1 e.2
        (' ' :: [' '].intercalate (renderEntry e'.1 e'.2 ::
          rest'.map (fun e => renderEntry e.1 e.2))) h1 h2 h3
      rw [findAllSubmatch_of_match n _ _ _ _ hm hn]
      simp only [List.length_append, List.length_cons, renderEntry_length] at hn
      obtain ⟨m, rfl⟩ : ∃ m, n = m + 2 := ⟨n - 2, by omega⟩
      have e2 : m + 2 - 1 = m + 1 := rfl
      rw [e2, findAllSubmatch_space, ih' m (by omega)]

theorem foldl_insert_lookup (f : Str → Str) (ks : List Str) (init : TagMap) (a : Str) :
    ((ks.map (fun k => (k, f k))).foldl (fun result m => result.insert m.1 m.2) init).lookup a =
      if a ∈ ks then some (f a) else init.lookup a := by
  induction ks generalizing init with
  | nil => simp
  | cons k rest ih =>
    simp only [List.map_cons, List.foldl_cons, ih]
    by_cases h1 : a ∈ rest
    · simp [h1]
    · by_cases h2 : a = k
      · subst h2; simp [h1, Finmap.lookup_insert]
      · simp [h1, h2, Finmap.lookup_insert_of_ne _ h2]

theorem sortStrings_eq_sort (keys : Finset Str) :
    sortStrings keys = keys.sort (· ≤ ·) := by
  rcases keys with ⟨⟨l⟩, hl⟩
  exact (List.mergeSort_eq_insertionSort _ l).symm

theorem mem_sortStrings (keys : Finset Str) (a : Str) : a ∈ sortStrings keys ↔ a ∈ keys := by
  rw [sortStrings_eq_sort]; exact Finset.mem_sort _

theorem sortStrings_sorted (keys : Finset Str) : (sortStrings keys).Sorted (· < ·) := by
  rw [sortStrings_eq_sort]; exact Finset.sort_sorted_lt _


/-- Reading back what `buildTag` wrote gives the map again, when the keys are non-empty
words and the values hold no double quote. -/
theorem parseTag_buildTag_of_words (m : TagMap)
    (hk : ∀ k ∈ m, k ≠ [] ∧ ∀ c ∈ k, isWordChar c = true)
    (hv : ∀ k v, m.lookup k = some v → '"' ∉ v) :
    parseTag (buildTag m) = m := by
  have hmap : (sortStrings m.keys).map (fun key => renderEntry key ((m.lookup key).getD [])) =
      ((sortStrings m.keys).map (fun k => (k, (m.lookup k).getD []))).map
        (fun e => renderEntry e.1 e.2) := by
    rw [List.map_map]; rfl
  have hes : ∀ e ∈ (sortStrings m.keys).map (fun k => (k, (m.lookup k).getD [])),
      e.1 ≠ [] ∧ (∀ c ∈ e.1, isWordChar c = true) ∧ '"' ∉ e.2 := by
    intro e he
    obtain ⟨k, hks, rfl⟩ := List.mem_map.mp he
    have hkm : k ∈ m := Finmap.mem_keys.mp ((mem_sortStrings _ _).mp hks)
    obtain ⟨v, hlv⟩ := Finmap.mem_iff.mp hkm
    refine ⟨(hk k hkm).1, (hk k hkm).2, ?_⟩
    simp only [hlv, Option.getD_some]
    exact hv k v hlv
  unfold parseTag buildTag
  rw [hmap, findAllSubmatch_join _ hes _ (le_refl _)]
  apply Finmap.ext_lookup
  intro a
  rw [foldl_insert_lookup]
  by_cases ha : a ∈ m
  · obtain ⟨v, hlv⟩ := Finmap.mem_iff.mp ha
    rw [if_pos ((mem_sortStrings _ _).mpr (Finmap.mem_keys.mpr ha)), hlv]
    rfl
  · rw [if_neg (fun h => ha (Finmap.mem_keys.mp ((mem_sortStrings _ _).mp h))),
      Finmap.lookup_empty, Finmap.lookup_eq_none.mpr ha]

/-! ## The console does not touch the tag map -/

@[simp] theorem print_tags (st : State) (t : Str) : (print st t).tags = st.tags := rfl

@[simp] theorem print_changed (st : State) (t : Str) : (print st t).changed = st.changed := rfl

@[simp] theorem scanLine_tags (st : State) : (scanLine st).2.tags = st.tags := by
  unfold scanLine; split <;> rfl

@[simp] theorem scanLine_changed (st : State) : (scanLine st).2.changed = st.changed := by
  unfold scanLine; split <;> rfl

@[simp] theorem confirmUpdate_tags (L : Libs) (p : Str) (st : State) :
    (confirmUpdate L p st).2.tags = st.tags := by
  have h := scanLine_tags (print st p)
  unfold confirmUpdate
  split <;> rename_i heq <;> rw [heq] at h <;> simpa using h

@[simp] theorem confirmUpdate_changed (L : Libs) (p : Str) (st : State) :
    (confirmUpdate L p st).2.changed = st.changed := by
  have h := scanLine_changed (print st p)
  unfold confirmUpdate
  split <;> rename_i heq <;> rw [heq] at h <;> simpa using h

/-! ## The delete loop -/

theorem deleteStep_lookup (st : State) (key a : Str) :
    (deleteStep st key).tags.lookup a = if a = key then none else st.tags.lookup a := by
  unfold deleteStep
  by_cases hk : key ∈ st.tags
  · by_cases ha : a = key
    · subst ha; simp [hk, Finmap.lookup_erase]
    · simp [hk, ha, Finmap.lookup_erase_ne ha]
  · by_cases ha : a = key
    · subst ha; simp [hk, Finmap.lookup_eq_none.mpr hk]
    · simp [hk, ha]

theorem deleteStep_changed (st : State) (key : Str) :
    (deleteStep st key).changed = true ↔ st.changed = true ∨ key ∈ st.tags := by
  unfold deleteStep
  by_cases hk : key ∈ st.tags <;> simp [hk]

theorem deleteStep_console (st : State) (key : Str) :
    (deleteStep st key).stdin = st.stdin ∧ (deleteStep st key).stdout = st.stdout := by
  unfold deleteStep
  by_cases hk : key ∈ st.tags <;> simp [hk]

theorem deleteStep_absent (st : State) (key : Str) (h : key ∉ st.tags) :
    deleteStep st key = st := by
  unfold deleteStep; simp [h]

theorem deleteLoop_lookup (deleteTags : List Str) (st : State) (a : Str) :
    (deleteLoop deleteTags st).tags.lookup a =
      if a ∈ deleteTags then none else st.tags.lookup a := by
  induction deleteTags generalizing st with
  | nil => simp [deleteLoop]
  | cons key rest ih =>
    have h := ih (deleteStep st key)
    simp only [deleteLoop, List.foldl_cons] at h ⊢
    rw [h, deleteStep_lookup]
    by_cases h1 : a = key
    · simp [h1]
    · by_cases h2 : a ∈ rest <;> simp [h1, h2]

theorem deleteLoop_changed (deleteTags : List Str) (st : State) :
    (deleteLoop deleteTags st).changed = true ↔
      st.changed = true ∨ ∃ k ∈ deleteTags, k ∈ st.tags := by
  induction deleteTags generalizing st with
  | nil => simp [deleteLoop]
  | cons key rest ih =>
    have h := ih (deleteStep st key)
    simp only [deleteLoop, List.foldl_cons] at h ⊢
    rw [h, deleteStep_changed]
    constructor
    · rintro ((h1 | h1) | ⟨k, hk, hm⟩)
      · exact Or.inl h1
      · exact Or.inr ⟨key, List.mem_cons_self _ _, h1⟩
      · refine Or.inr ⟨k, List.mem_cons_of_mem _ hk, ?_⟩
        have hl := deleteStep_lookup st key k
        rw [Finmap.mem_iff] at hm
        obtain ⟨b, hb⟩ := hm
        rw [hb] at hl
        by_cases hkk : k = key
        · simp [hkk] at hl
        · simp only [hkk, if_false] at hl
          exact Finmap.mem_of_lookup_eq_some hl.symm
    · rintro (h1 | ⟨k, hk, hm⟩)
      · exact Or.inl (Or.inl h1)
      · rcases List.mem_cons.mp hk with rfl | hk
        · exact Or.inl (Or.inr hm)
        · by_cases hkk : k = key
          · subst hkk; exact Or.inl (Or.inr hm)
          · refine Or.inr ⟨k, hk, ?_⟩
            have hl := deleteStep_lookup st key k
            simp only [hkk, if_false] at hl
            rw [Finmap.mem_iff] at hm ⊢
            obtain ⟨b, hb⟩ := hm
            exact ⟨b, hl.trans hb⟩

theorem deleteLoop_console (deleteTags : List Str) (st : State) :
    (deleteLoop deleteTags st).stdin = st.stdin ∧
      (deleteLoop deleteTags st).stdout = st.stdout := by
  induction deleteTags generalizing st with
  | nil => simp [deleteLoop]
  | cons key rest ih =>
    have h := ih (deleteStep st key)
    simp only [deleteLoop, List.foldl_cons] at h ⊢
    exact ⟨h.1.trans (deleteStep_console st key).1, h.2.trans (deleteStep_console st key).2⟩

theorem deleteLoop_absent (deleteTags : List Str) (st : State)
    (h : ∀ k ∈ deleteTags, k ∉ st.tags) : deleteLoop deleteTags st = st := by
  induction deleteTags generalizing st with
  | nil => rfl
  | cons key rest ih =>
    simp only [deleteLoop, List.foldl_cons]
    rw [deleteStep_absent st key (h key (List.mem_cons_self _ _))]
    exact ih st (fun k hk => h k (List.mem_cons_of_mem _ hk))

/-! ## The add step -/

@[simp] theorem addUpdate_tags (L : Libs) (field : Field) (caseStyle : Str)
    (interactive force : Bool) (st : State) (key current : Str) :
    (addUpdate L field caseStyle interactive force st key current).2.tags = st.tags := by
  unfold addUpdate; split <;> simp

@[simp] theorem addUpdate_changed (L : Libs) (field : Field) (caseStyle : Str)
    (interactive force : Bool) (st : State) (key current : Str) :
    (addUpdate L field caseStyle interactive force st key current).2.changed = st.changed := by
  unfold addUpdate; split <;> simp

theorem addUpdate_force (L : Libs) (field : Field) (caseStyle : Str)
    (interactive : Bool) (st : State) (key current : Str) :
    addUpdate L field caseStyle interactive true st key current = (true, st) := by
  simp [addUpdate]

theorem addUpdate_silent (L : Libs) (field : Field) (caseStyle : Str)
    (st : State) (key current : Str) :
    addUpdate L field caseStyle false false st key current = (false, st) := by
  simp [addUpdate]

@[simp] theorem addNewVal_tags (L : Libs) (field : Field) (caseStyle : Str)
    (interactive : Bool) (st : State) (key : Str) :
    (addNewVal L field caseStyle interactive st key).2.tags = st.tags := by
  unfold addNewVal
  split
  · have h := scanLine_tags (print st
      (addValueText key (fieldName field) (defaultTagValue L field caseStyle)))
    split <;> rename_i heq <;> rw [heq] at h <;> simpa using h
  · rfl

@[simp] theorem addNewVal_changed (L : Libs) (field : Field) (caseStyle : Str)
    (interactive : Bool) (st : State) (key : Str) :
    (addNewVal L field caseStyle interactive st key).2.changed = st.changed := by
  unfold addNewVal
  split
  · have h := scanLine_changed (print st
      (addValueText key (fieldName field) (defaultTagValue L field caseStyle)))
    split <;> rename_i heq <;> rw [heq] at h <;> simpa using h
  · rfl

theorem addNewVal_quiet (L : Libs) (field : Field) (caseStyle : Str) (st : State) (key : Str) :
    addNewVal L field caseStyle false st key = ([], st) := by
  simp [addNewVal]

theorem addStep_default (L : Libs) (field : Field) (caseStyle : Str) (interactive force : Bool)
    (st : State) (key : Str)
    (h : st.tags.lookup key = some (defaultTagValue L field caseStyle)) :
    addStep L field caseStyle interactive force st key = st := by
  unfold addStep; simp [h]

theorem addStep_silent_present (L : Libs) (field : Field) (caseStyle : Str)
    (st : State) (key c : Str) (h : st.tags.lookup key = some c) :
    addStep L field caseStyle false false st key = st := by
  unfold addStep; simp [h, addUpdate_silent]

theorem addStep_quiet_absent (L : Libs) (field : Field) (caseStyle : Str) (force : Bool)
    (st : State) (key : Str) (h : st.tags.lookup key = none) :
    addStep L field caseStyle false force st key =
      { st with tags := st.tags.insert key (defaultTagValue L field caseStyle),
                changed := true } := by
  unfold addStep; simp [h, addNewVal_quiet]

theorem addStep_force_present (L : Libs) (field : Field) (caseStyle : Str) (interactive : Bool)
    (st : State) (key c : Str) (h : st.tags.lookup key = some c)
    (hc : c ≠ defaultTagValue L field caseStyle) :
    addStep L field caseStyle interactive true st key =
      { st with tags := st.tags.insert key (defaultTagValue L field caseStyle),
                changed := true } := by
  unfold addStep; simp [h, hc, addUpdate_force]

/-- An add step leaves map and flag alone, or stores a value under its key and sets the flag. -/
theorem addStep_shape (L : Libs) (field : Field) (caseStyle : Str) (interactive force : Bool)
    (st : State) (key : Str) :
    ((addStep L field caseStyle interactive force st key).tags = st.tags ∧
      (addStep L field caseStyle interactive force st key).changed = st.changed) ∨
    ∃ v, (addStep L field caseStyle interactive force st key).tags = st.tags.insert key v ∧
      (addStep L field caseStyle interactive force st key).changed = true := by
  cases hl : st.tags.lookup key with
  | some current =>
    by_cases hc : current = defaultTagValue L field caseStyle
    · left; simp [addStep, hl, hc]
    · cases hu : (addUpdate L field caseStyle interactive force st key current).1
      · left; simp [addStep, hl, hc, hu]
      · right
        exact ⟨defaultTagValue L field caseStyle, by simp [addStep, hl, hc, hu],
          by simp [addStep, hl, hc, hu]⟩
  | none =>
    right
    exact ⟨if (addNewVal L field caseStyle interactive st key).1 = []
      then defaultTagValue L field caseStyle
      else (addNewVal L field caseStyle interactive st key).1,
      by simp [addStep, hl], by simp [addStep, hl]⟩

theorem addStep_lookup_ne (L : Libs) (field : Field) (caseStyle : Str)
    (interactive force : Bool) (st : State) (key a : Str) (h : a ≠ key) :
    (addStep L field caseStyle interactive force st key).tags.lookup a = st.tags.lookup a := by
  rcases addStep_shape L field caseStyle interactive force st key with ⟨h1, _⟩ | ⟨v, h1, _⟩
  · rw [h1]
  · rw [h1, Finmap.lookup_insert_of_ne _ h]

theorem addStep_mem (L : Libs) (field : Field) (caseStyle : Str)
    (interactive force : Bool) (st : State) (key a : Str) (h : a ∈ st.tags) :
    a ∈ (addStep L field caseStyle interactive force st key).tags := by
  rcases addStep_shape L field caseStyle interactive force st key with ⟨h1, _⟩ | ⟨v, h1, _⟩
  · rw [h1]; exact h
  · rw [h1, Finmap.mem_insert]; exact Or.inr h

theorem addStep_changed_mono (L : Libs) (field : Field) (caseStyle : Str)
    (interactive force : Bool) (st : State) (key : Str) (h : st.changed = true) :
    (addStep L field caseStyle interactive force st key).changed = true := by
  rcases addStep_shape L field caseStyle interactive force st key with ⟨_, h1⟩ | ⟨v, _, h1⟩
  · rw [h1]; exact h
  · exact h1

theorem addLoop_lookup_of_not_mem (L : Libs) (field : Field) (caseStyle : Str)
    (interactive force : Bool) (addTags : List Str) (st : State) (a : Str)
    (h : a ∉ addTags) :
    (addLoop L field caseStyle interactive force addTags st).tags.lookup a =
      st.tags.lookup a := by
  induction addTags generalizing st with
  | nil => rfl
  | cons key rest ih =>
    have h1 : a ≠ key := fun e => h (e ▸ List.mem_cons_self _ _)
    have h2 : a ∉ rest := fun e => h (List.mem_cons_of_mem _ e)
    simp only [addLoop, List.foldl_cons] at ih ⊢
    rw [ih _ h2, addStep_lookup_ne _ _ _ _ _ _ _ _ h1]

theorem addLoop_changed_mono (L : Libs) (field : Field) (caseStyle : Str)
    (interactive force : Bool) (addTags : List Str) (st : State) (h : st.changed = true) :
    (addLoop L field caseStyle interactive force addTags st).changed = true := by
  induction addTags generalizing st with
  | nil => exact h
  | cons key rest ih =>
    simp only [addLoop, List.foldl_cons] at ih ⊢
    exact ih _ (addStep_changed_mono _ _ _ _ _ _ _ h)

/-! ## The overwrite step -/

@[simp] theorem overwriteGo_tags (L : Libs) (field : Field) (caseStyle : Str)
    (interactive force : Bool) (st : State) (key newVal current : Str) :
    (overwriteGo L field caseStyle interactive force st key newVal current).2.tags =
      st.tags := by
  unfold overwriteGo; split <;> simp

@[simp] theorem overwriteGo_changed (L : Libs) (field : Field) (caseStyle : Str)
    (interactive force : Bool) (st : State) (key newVal current : Str) :
    (overwriteGo L field caseStyle interactive force st key newVal current).2.changed =
      st.changed := by
  unfold overwriteGo; split <;> simp

theorem overwriteGo_value (L : Libs) (field : Field) (caseStyle : Str)
    (interactive force : Bool) (st : State) (key newVal current : Str) (h : newVal ≠ []) :
    overwriteGo L field caseStyle interactive force st key newVal current = (true, st) := by
  simp [overwriteGo, h]

theorem overwriteGo_force (L : Libs) (field : Field) (caseStyle : Str)
    (interactive : Bool) (st : State) (key newVal current : Str) :
    overwriteGo L field caseStyle interactive true st key newVal current = (true, st) := by
  simp [overwriteGo]

theorem overwriteGo_quiet (L : Libs) (field : Field) (caseStyle : Str)
    (force : Bool) (st : State) (key newVal current : Str) :
    overwriteGo L field caseStyle false force st key newVal current = (true, st) := by
  simp [overwriteGo]

theorem overwriteStep_absent (L : Libs) (field : Field) (caseStyle : Str)
    (interactive force : Bool) (st : State) (entry : Str × Str)
    (h : st.tags.lookup entry.1 = none) :
    overwriteStep L field caseStyle interactive force st entry = st := by
  unfold overwriteStep; simp [h]

theorem overwriteStep_value (L : Libs) (field : Field) (caseStyle : Str)
    (interactive force : Bool) (st : State) (key v c : Str)
    (h : st.tags.lookup key = some c) (hv : v ≠ []) :
    overwriteStep L field caseStyle interactive force st (key, v) =
      if c ≠ v then { st with tags := st.tags.insert key v, changed := true } else st := by
  unfold overwriteStep; simp [h, hv, overwriteGo_value]

/-- An overwrite step leaves map and flag alone, or replaces the value of a key the map
holds and sets the flag. -/
theorem overwriteStep_shape (L : Libs) (field : Field) (caseStyle : Str)
    (interactive force : Bool) (st : State) (entry : Str × Str) :
    ((overwriteStep L field caseStyle interactive force st entry).tags = st.tags ∧
      (overwriteStep L field caseStyle interactive force st entry).changed = st.changed) ∨
    ∃ v, entry.1 ∈ st.tags ∧
      (overwriteStep L field caseStyle interactive force st entry).tags =
        st.tags.insert entry.1 v ∧
      (overwriteStep L field caseStyle interactive force st entry).changed = true := by
  cases hl : st.tags.lookup entry.1 with
  | none => left; simp [overwriteStep, hl]
  | some current =>
    have hm : entry.1 ∈ st.tags := Finmap.mem_of_lookup_eq_some hl
    cases hu : (overwriteGo L field caseStyle interactive force st entry.1 entry.2 current).1
    · left; simp [overwriteStep, hl, hu]
    · by_cases hc : current =
          (if entry.2 = [] then defaultTagValue L field caseStyle else entry.2)
      · left; simp [overwriteStep, hl, hu, ← hc]
      · right
        exact ⟨if entry.2 = [] then defaultTagValue L field caseStyle else entry.2, hm,
          by simp [overwriteStep, hl, hu, hc], by simp [overwriteStep, hl, hu, hc]⟩

theorem overwriteStep_lookup_ne (L : Libs) (field : Field) (caseStyle : Str)
    (interactive force : Bool) (st : State) (entry : Str × Str) (a : Str) (h : a ≠ entry.1) :
    (overwriteStep L field caseStyle interactive force st entry).tags.lookup a =
      st.tags.lookup a := by
  rcases overwriteStep_shape L field caseStyle interactive force st entry with
    ⟨h1, _⟩ | ⟨v, _, h1, _⟩
  · rw [h1]
  · rw [h1, Finmap.lookup_insert_of_ne _ h]

theorem overwriteStep_mem_iff (L : Libs) (field : Field) (caseStyle : Str)
    (interactive force : Bool) (st : State) (entry : Str × Str) (a : Str) :
    a ∈ (overwriteStep L field caseStyle interactive force st entry).tags ↔ a ∈ st.tags := by
  rcases overwriteStep_shape L field caseStyle interactive force st entry with
    ⟨h1, _⟩ | ⟨v, hm, h1, _⟩
  · rw [h1]
  · rw [h1, Finmap.mem_insert]
    constructor
    · rintro (rfl | h)
      · exact hm
      · exact h
    · exact Or.inr

theorem overwriteStep_changed_mono (L : Libs) (field : Field) (caseStyle : Str)
    (interactive force : Bool) (st : State) (entry : Str × Str) (h : st.changed = true) :
    (overwriteStep L field caseStyle interactive force st entry).changed = true := by
  rcases overwriteStep_shape L field caseStyle interactive force st entry with
    ⟨_, h1⟩ | ⟨v, _, _, h1⟩
  · rw [h1]; exact h
  · exact h1

theorem overwriteLoop_mem_iff (L : Libs) (field : Field) (caseStyle : Str)
    (interactive force : Bool) (entries : List (Str × Str)) (st : State) (a : Str) :
    a ∈ (overwriteLoop L field caseStyle interactive force entries st).tags ↔ a ∈ st.tags := by
  induction entries generalizing st with
  | nil => rfl
  | cons e rest ih =>
    simp only [overwriteLoop, List.foldl_cons] at ih ⊢
    rw [ih, overwriteStep_mem_iff]

theorem overwriteLoop_lookup_of_not_mem (L : Libs) (field : Field) (caseStyle : Str)
    (interactive force : Bool) (entries : List (Str × Str)) (st : State) (a : Str)
    (h : a ∉ entries.map Prod.fst) :
    (overwriteLoop L field caseStyle interactive force entries st).tags.lookup a =
      st.tags.lookup a := by
  induction entries generalizing st with
  | nil => rfl
  | cons e rest ih =>
    have h1 : a ≠ e.1 := fun e1 => h (by simp [e1])
    have h2 : a ∉ rest.map Prod.fst := fun e1 => h (by
      rw [List.map_cons]; exact List.mem_cons_of_mem _ e1)
    simp only [overwriteLoop, List.foldl_cons] at ih ⊢
    rw [ih _ h2, overwriteStep_lookup_ne _ _ _ _ _ _ _ _ h1]

theorem overwriteLoop_changed_mono (L : Libs) (field : Field) (caseStyle : Str)
    (interactive force : Bool) (entries : List (Str × Str)) (st : State)
    (h : st.changed = true) :
    (overwriteLoop L field caseStyle interactive force entries st).changed = true := by
  induction entries generalizing st with
  | nil => exact h
  | cons e rest ih =>
    simp only [overwriteLoop, List.foldl_cons] at ih ⊢
    exact ih _ (overwriteStep_changed_mono _ _ _ _ _ _ _ h)

theorem overwriteLoop_absent (L : Libs) (field : Field) (caseStyle : Str)
    (interactive force : Bool) (entries : List (Str × Str)) (st : State)
    (h : ∀ e ∈ entries, e.1 ∉ st.tags) :
    overwriteLoop L field caseStyle interactive force entries st = st := by
  induction entries with
  | nil => rfl
  | cons e rest ih =>
    simp only [overwriteLoop, List.foldl_cons] at ih ⊢
    rw [overwriteStep_absent _ _ _ _ _ _ _
      (Finmap.lookup_eq_none.mpr (h e (List.mem_cons_self _ _)))]
    exact ih (fun e1 he1 => h e1 (List.mem_cons_of_mem _ he1))

/-! ## Keys at their default value under the add loop -/

theorem addLoop_keeps_default (L : Libs) (field : Field) (caseStyle : Str)
    (interactive force : Bool) (addTags : List Str) (st : State) (k : Str)
    (h : st.tags.lookup k = some (defaultTagValue L field caseStyle)) :
    (addLoop L field caseStyle interactive force addTags st).tags.lookup k =
      some (defaultTagValue L field caseStyle) := by
  induction addTags generalizing st with
  | nil => exact h
  | cons key rest ih =>
    simp only [addLoop, List.foldl_cons] at ih ⊢
    apply ih
    by_cases hk : k = key
    · subst hk; rw [addStep_default _ _ _ _ _ _ _ h]; exact h
    · rw [addStep_lookup_ne _ _ _ _ _ _ _ _ hk]; exact h

theorem addLoop_quiet_absent (L : Libs) (field : Field) (caseStyle : Str)
    (force : Bool) (addTags : List Str) (st : State) (k : Str)
    (hk : k ∈ addTags) (h : st.tags.lookup k = none) :
    (addLoop L field caseStyle false force addTags st).tags.lookup k =
        some (defaultTagValue L field caseStyle) ∧
      (addLoop L field caseStyle false force addTags st).changed = true := by
  induction addTags generalizing st with
  | nil => simp at hk
  | cons key rest ih =>
    by_cases hkk : k = key
    · subst hkk
      simp only [addLoop, List.foldl_cons]
      rw [addStep_quiet_absent _ _ _ _ _ _ h]
      exact ⟨addLoop_keeps_default _ _ _ _ _ _ _ _ (Finmap.lookup_insert _),
        addLoop_changed_mono _ _ _ _ _ _ _ rfl⟩
    · have hr : k ∈ rest := by
        rcases List.mem_cons.mp hk with h1 | h1
        · exact absurd h1 hkk
        · exact h1
      have h1 := ih (addStep L field caseStyle false force st key) hr
        (by rw [addStep_lookup_ne _ _ _ _ _ _ _ _ hkk]; exact h)
      simpa only [addLoop, List.foldl_cons] using h1

theorem addLoop_silent_present (L : Libs) (field : Field) (caseStyle : Str)
    (addTags : List Str) (st : State) (h : ∀ a ∈ addTags, a ∈ st.tags) :
    addLoop L field caseStyle false false addTags st = st := by
  induction addTags with
  | nil => rfl
  | cons key rest ih =>
    obtain ⟨c, hc⟩ := Finmap.mem_iff.mp (h key (List.mem_cons_self _ _))
    simp only [addLoop, List.foldl_cons] at ih ⊢
    rw [addStep_silent_present _ _ _ _ _ c hc]
    exact ih (fun a ha => h a (List.mem_cons_of_mem _ ha))

theorem addLoop_silent_lookup (L : Libs) (field : Field) (caseStyle : Str)
    (addTags : List Str) (st : State) (k c : Str) (h : st.tags.lookup k = some c) :
    (addLoop L field caseStyle false false addTags st).tags.lookup k = some c := by
  induction addTags generalizing st with
  | nil => exact h
  | cons key rest ih =>
    simp only [addLoop, List.foldl_cons] at ih ⊢
    apply ih
    by_cases hk : k = key
    · subst hk; rw [addStep_silent_present _ _ _ _ _ c h]; exact h
    · rw [addStep_lookup_ne _ _ _ _ _ _ _ _ hk]; exact h

/-! ## Steps that do not look at the console -/

theorem deleteStep_withConsole (st : State) (key : Str) (i o : List Str) :
    deleteStep (withConsole st i o) key = withConsole (deleteStep st key) i o := by
  unfold deleteStep withConsole
  by_cases hk : key ∈ st.tags <;> simp [hk]

theorem deleteLoop_withConsole (deleteTags : List Str) (st : State) (i o : List Str) :
    deleteLoop deleteTags (withConsole st i o) = withConsole (deleteLoop deleteTags st) i o := by
  induction deleteTags generalizing st with
  | nil => rfl
  | cons key rest ih =>
    simp only [deleteLoop, List.foldl_cons] at ih ⊢
    rw [deleteStep_withConsole, ih]

theorem addStep_force_withConsole (L : Libs) (field : Field) (caseStyle : Str)
    (interactive : Bool) (st : State) (key : Str) (i o : List Str)
    (h : interactive = false ∨ key ∈ st.tags) :
    addStep L field caseStyle interactive true (withConsole st i o) key =
      withConsole (addStep L field caseStyle interactive true st key) i o := by
  cases hl : st.tags.lookup key with
  | some c =>
    have hl' : (withConsole st i o).tags.lookup key = some c := hl
    by_cases hc : c = defaultTagValue L field caseStyle
    · rw [addStep_default _ _ _ _ _ _ _ (hc ▸ hl), addStep_default _ _ _ _ _ _ _ (hc ▸ hl')]
    · rw [addStep_force_present _ _ _ _ _ _ c hl hc,
        addStep_force_present _ _ _ _ _ _ c hl' hc]
      rfl
  | none =>
    have hl' : (withConsole st i o).tags.lookup key = none := hl
    rcases h with h | h
    · subst h
      rw [addStep_quiet_absent _ _ _ _ _ _ hl, addStep_quiet_absent _ _ _ _ _ _ hl']
      rfl
    · exact absurd h (Finmap.lookup_eq_none.mp hl)

theorem addLoop_force_withConsole (L : Libs) (field : Field) (caseStyle : Str)
    (interactive : Bool) (addTags : List Str) (st : State) (i o : List Str)
    (h : interactive = false ∨ ∀ a ∈ addTags, a ∈ st.tags) :
    addLoop L field caseStyle interactive true addTags (withConsole st i o) =
      withConsole (addLoop L field caseStyle interactive true addTags st) i o := by
  induction addTags generalizing st with
  | nil => rfl
  | cons key rest ih =>
    simp only [addLoop, List.foldl_cons] at ih ⊢
    rw [addStep_force_withConsole L field caseStyle interactive st key i o
      (h.imp id (fun h1 => h1 key (List.mem_cons_self _ _)))]
    exact ih _ (h.imp id (fun h1 a ha => addStep_mem _ _ _ _ _ _ _ _
      (h1 a (List.mem_cons_of_mem _ ha))))

theorem overwriteStep_force_withConsole (L : Libs) (field : Field) (caseStyle : Str)
    (interactive : Bool) (st : State) (entry : Str × Str) (i o : List Str) :
    overwriteStep L field caseStyle interactive true (withConsole st i o) entry =
      withConsole (overwriteStep L field caseStyle interactive true st entry) i o := by
  cases hl : st.tags.lookup entry.1 with
  | none =>
    have hl' : (withConsole st i o).tags.lookup entry.1 = none := hl
    rw [overwriteStep_absent _ _ _ _ _ _ _ hl, overwriteStep_absent _ _ _ _ _ _ _ hl']
  | some c =>
    have hl' : (withConsole st i o).tags.lookup entry.1 = some c := hl
    simp only [overwriteStep, hl, hl', overwriteGo_force]
    split_ifs <;> rfl

theorem overwriteLoop_force_withConsole (L : Libs) (field : Field) (caseStyle : Str)
    (interactive : Bool) (entries : List (Str × Str)) (st : State) (i o : List Str) :
    overwriteLoop L field caseStyle interactive true entries (withConsole st i o) =
      withConsole (overwriteLoop L field caseStyle interactive true entries st) i o := by
  induction entries generalizing st with
  | nil => rfl
  | cons e rest ih =>
    simp only [overwriteLoop, List.foldl_cons] at ih ⊢
    rw [overwriteStep_force_withConsole, ih]

theorem resolve_force_withConsole (L : Libs) (field : Field) (caseStyle : Str)
    (interactive : Bool) (addTags deleteTags : List Str) (entries : List (Str × Str))
    (st : State) (i o : List Str)
    (h : interactive = false ∨ ∀ a ∈ addTags, a ∈ st.tags ∧ a ∉ deleteTags) :
    resolve L field caseStyle interactive true addTags deleteTags entries (withConsole st i o) =
      withConsole (resolve L field caseStyle interactive true addTags deleteTags entries st)
        i o := by
  unfold resolve
  rw [deleteLoop_withConsole, addLoop_force_withConsole, overwriteLoop_force_withConsole]
  refine h.imp id (fun h1 a ha => ?_)
  obtain ⟨b, hb⟩ := Finmap.mem_iff.mp (h1 a ha).1
  have hl := deleteLoop_lookup deleteTags st a
  rw [if_neg (h1 a ha).2, hb] at hl
  exact Finmap.mem_of_lookup_eq_some hl

/-! ## The value an add directive reads -/

theorem addNewVal_fst (L : Libs) (field : Field) (caseStyle : Str) (st : State) (key : Str) :
    (addNewVal L field caseStyle true st key).1 = st.stdin.head?.getD [] := by
  unfold addNewVal scanLine print
  cases h : st.stdin <;> simp

theorem addStep_force_lookup (L : Libs) (field : Field) (caseStyle : Str)
    (interactive : Bool) (st : State) (k : Str)
    (h : interactive = false ∨ k ∈ st.tags ∨
      ∀ line, st.stdin.head? = some line →
        line = [] ∨ line = defaultTagValue L field caseStyle) :
    (addStep L field caseStyle interactive true st k).tags.lookup k =
      some (defaultTagValue L field caseStyle) := by
  cases hl : st.tags.lookup k with
  | some c =>
    by_cases hc : c = defaultTagValue L field caseStyle
    · rw [addStep_default _ _ _ _ _ _ _ (hc ▸ hl), hl, hc]
    · rw [addStep_force_present _ _ _ _ _ _ c hl hc]
      exact Finmap.lookup_insert _
  | none =>
    rcases h with h | h | h
    · subst h
      rw [addStep_quiet_absent _ _ _ _ _ _ hl]
      exact Finmap.lookup_insert _
    · exact absurd h (Finmap.lookup_eq_none.mp hl)
    · cases interactive
      · rw [addStep_quiet_absent _ _ _ _ _ _ hl]
        exact Finmap.lookup_insert _
      · simp only [addStep, hl, addNewVal_tags, addNewVal_fst]
        rw [Finmap.lookup_insert]
        cases hs : st.stdin.head? with
        | none => simp
        | some line =>
          rcases h line hs with h1 | h1
          · simp [h1]
          · by_cases h2 : line = []
            · simp [h2]
            · simp [h2, h1]

/-! ## The claims on the directive loops -/

/-- C3: a key listed in `addTags` and absent from the tag map after the delete loop holds
`defaultTagValue field caseStyle` after the add loop when `interactive` is false, and the
`changed` flag is set; the flag stays set through the overwrite loop, and so does the value
when no overwrite entry names the key. -/
theorem add_absent_gives_default (L : Libs) (field : Field) (caseStyle : Str) (force : Bool)
    (addTags deleteTags : List Str) (entries : List (Str × Str)) (st : State) (k : Str)
    (hk : k ∈ addTags) (ha : k ∉ (deleteLoop deleteTags st).tags) :
    (addLoop L field caseStyle false force addTags (deleteLoop deleteTags st)).tags.lookup k =
        some (defaultTagValue L field caseStyle) ∧
      (addLoop L field caseStyle false force addTags (deleteLoop deleteTags st)).changed
        = true ∧
      (resolve L field caseStyle false force addTags deleteTags entries st).changed = true ∧
      (k ∉ entries.map Prod.fst →
        (resolve L field caseStyle false force addTags deleteTags entries st).tags.lookup k =
          some (defaultTagValue L field caseStyle)) := by
  have h := addLoop_quiet_absent L field caseStyle force addTags (deleteLoop deleteTags st) k
    hk (Finmap.lookup_eq_none.mpr ha)
  refine ⟨h.1, h.2, overwriteLoop_changed_mono _ _ _ _ _ _ _ h.2, fun hn => ?_⟩
  unfold resolve
  rw [overwriteLoop_lookup_of_not_mem _ _ _ _ _ _ _ _ hn]
  exact h.1

/-- C3 at the field `Name` without a tag, `add=[json]`, `camelCase`, force: the key is absent,
the add loop stores `name` under `json`, and the field's new tag reads `json:"name"`. -/
theorem add_absent_gives_default_witness :
    "json".toList ∈ ["json".toList] ∧
    "json".toList ∉ (deleteLoop [] (start (tagValue nameField) [])).tags ∧
    ((addLoop wordLibs nameField "camelCase".toList false true ["json".toList]
        (deleteLoop [] (start (tagValue nameField) []))).tags.lookup "json".toList =
        some (defaultTagValue wordLibs nameField "camelCase".toList) ∧
      (addLoop wordLibs nameField "camelCase".toList false true ["json".toList]
        (deleteLoop [] (start (tagValue nameField) []))).changed = true ∧
      (resolve wordLibs nameField "camelCase".toList false true ["json".toList] [] []
        (start (tagValue nameField) [])).changed = true ∧
      ("json".toList ∉ ([] : List (Str × Str)).map Prod.fst →
        (resolve wordLibs nameField "camelCase".toList false true ["json".toList] [] []
          (start (tagValue nameField) [])).tags.lookup "json".toList =
          some (defaultTagValue wordLibs nameField "camelCase".toList))) ∧
    (processField wordLibs "camelCase".toList false true ["json".toList] [] []
      nameField false [] []).1.tag = some "\x60json:\"name\"\x60".toList :=
  ⟨by decide, by decide,
    add_absent_gives_default wordLibs nameField "camelCase".toList true ["json".toList] [] []
      (start (tagValue nameField) []) "json".toList (by decide) (by decide),
    by decide⟩

/-- C6: when the tag map already holds `defaultTagValue field caseStyle` under `k`, the add
directive for `k` returns the state it was given, whatever `interactive` and `force` are: the
map is unchanged, `changed` is not set, no line is read and nothing is printed. -/
theorem add_at_default_is_noop (L : Libs) (field : Field) (caseStyle : Str)
    (interactive force : Bool) (st : State) (k : Str)
    (h : st.tags.lookup k = some (defaultTagValue L field caseStyle)) :
    addStep L field caseStyle interactive force st k = st :=
  addStep_default L field caseStyle interactive force st k h

/-- C6 at the field `Name` with tag `json:"name"`, interactive, an answer waiting. -/
theorem add_at_default_is_noop_witness :
    (start "json:\"name\"".toList ["y".toList]).tags.lookup "json".toList =
      some (defaultTagValue wordLibs nameField "camelCase".toList) ∧
    addStep wordLibs nameField "camelCase".toList true false
      (start "json:\"name\"".toList ["y".toList]) "json".toList =
      start "json:\"name\"".toList ["y".toList] :=
  ⟨by decide, add_at_default_is_noop wordLibs nameField "camelCase".toList true false
    (start "json:\"name\"".toList ["y".toList]) "json".toList (by decide)⟩

/-- C7: with `interactive` and `force` both false, the add directive for a key `k` that the
map holds with a value `c` other than the default returns the state it was given (value,
`changed` flag and console untouched), and `k` still holds `c` after the whole add loop. -/
theorem silent_add_never_overwrites (L : Libs) (field : Field) (caseStyle : Str)
    (addTags : List Str) (st : State) (k c : Str)
    (h : st.tags.lookup k = some c) (_hc : c ≠ defaultTagValue L field caseStyle) :
    addStep L field caseStyle false false st k = st ∧
      (addLoop L field caseStyle false false addTags st).tags.lookup k = some c :=
  ⟨addStep_silent_present L field caseStyle st k c h,
    addLoop_silent_lookup L field caseStyle addTags st k c h⟩

/-- C7 at the field `Name` with tag `json:"full_name"` and `add=[json]`. -/
theorem silent_add_never_overwrites_witness :
    (start "json:\"full_name\"".toList []).tags.lookup "json".toList =
      some "full_name".toList ∧
    "full_name".toList ≠ defaultTagValue wordLibs nameField "camelCase".toList ∧
    (addStep wordLibs nameField "camelCase".toList false false
        (start "json:\"full_name\"".toList []) "json".toList =
        start "json:\"full_name\"".toList [] ∧
      (addLoop wordLibs nameField "camelCase".toList false false ["json".toList]
        (start "json:\"full_name\"".toList [])).tags.lookup "json".toList =
        some "full_name".toList) :=
  ⟨by decide, by decide,
    silent_add_never_overwrites wordLibs nameField "camelCase".toList ["json".toList]
      (start "json:\"full_name\"".toList []) "json".toList "full_name".toList
      (by decide) (by decide)⟩

/-- C8: an overwrite entry `(k, v)`, with `v` empty or not and under every policy, returns
the state it was given when `k` is absent from the map; `k` is still absent after the whole
overwrite loop, whatever entries it runs over; and with no add directive a field whose map
is empty keeps the state it started from. -/
theorem overwrite_never_creates (L : Libs) (field : Field) (caseStyle : Str)
    (interactive force : Bool) (deleteTags : List Str) (entries : List (Str × Str))
    (st : State) (k v : Str) (h : k ∉ st.tags) :
    overwriteStep L field caseStyle interactive force st (k, v) = st ∧
      k ∉ (overwriteLoop L field caseStyle interactive force entries st).tags ∧
      (st.tags = ∅ →
        resolve L field caseStyle interactive force [] deleteTags entries st = st) := by
  refine ⟨overwriteStep_absent _ _ _ _ _ _ _ (Finmap.lookup_eq_none.mpr h), ?_, fun he => ?_⟩
  · rw [overwriteLoop_mem_iff]; exact h
  · have hd : deleteLoop deleteTags st = st :=
      deleteLoop_absent deleteTags st (fun a _ => by rw [he]; exact Finmap.not_mem_empty)
    have hadd : addLoop L field caseStyle interactive force [] st = st := rfl
    unfold resolve
    rw [hd, hadd]
    exact overwriteLoop_absent _ _ _ _ _ _ _
      (fun e _ => by rw [he]; exact Finmap.not_mem_empty)

/-- C8 at the empty tag map with `overwrite=[json=foo]` and no add directive. -/
theorem overwrite_never_creates_witness :
    "json".toList ∉ (start [] []).tags ∧
    (overwriteStep wordLibs nameField "camelCase".toList false true (start [] [])
        ("json".toList, "foo".toList) = start [] [] ∧
      "json".toList ∉ (overwriteLoop wordLibs nameField "camelCase".toList false true
        [splitOverwrite "json=foo".toList] (start [] [])).tags ∧
      ((start [] []).tags = ∅ →
        resolve wordLibs nameField "camelCase".toList false true [] []
          [splitOverwrite "json=foo".toList] (start [] []) = start [] [])) :=
  ⟨by decide, overwrite_never_creates wordLibs nameField "camelCase".toList false true []
    [splitOverwrite "json=foo".toList] (start [] []) "json".toList "foo".toList (by decide)⟩

/-- C9: an overwrite entry `k=v` with `v` non-empty, for a key `k` the map holds with value
`c`, under every combination of `interactive` and `force`: the result maps `k` to `v`, every
other key keeps its value, no line is read and nothing is printed, and the `changed` flag is
set when `v` differs from `c` and left as it was when `v` equals `c`. -/
theorem overwrite_explicit_value (L : Libs) (field : Field) (caseStyle : Str)
    (interactive force : Bool) (st : State) (k v c : Str)
    (h : st.tags.lookup k = some c) (hv : v ≠ []) :
    (overwriteStep L field caseStyle interactive force st (k, v)).tags.lookup k = some v ∧
      (∀ a, a ≠ k →
        (overwriteStep L field caseStyle interactive force st (k, v)).tags.lookup a =
          st.tags.lookup a) ∧
      (overwriteStep L field caseStyle interactive force st (k, v)).stdin = st.stdin ∧
      (overwriteStep L field caseStyle interactive force st (k, v)).stdout = st.stdout ∧
      (v ≠ c → (overwriteStep L field caseStyle interactive force st (k, v)).changed = true) ∧
      (v = c →
        (overwriteStep L field caseStyle interactive force st (k, v)).changed = st.changed) := by
  rw [overwriteStep_value L field caseStyle interactive force st k v c h hv]
  by_cases hcv : c = v
  · subst hcv
    simp [h]
  · have hvc : v ≠ c := fun e => hcv e.symm
    simp only [ne_eq, hcv, not_false_eq_true, if_true, Finmap.lookup_insert, true_and]
    exact ⟨fun a ha => Finmap.lookup_insert_of_ne _ ha, fun _ => trivial,
      fun e => absurd e hvc⟩

/-- C9 at the field `Name` with tag `json:"name"` and `overwrite=[json=full_name]`: the new
tag reads `json:"full_name"`. -/
theorem overwrite_explicit_value_witness :
    (start "json:\"name\"".toList []).tags.lookup "json".toList = some "name".toList ∧
    "full_name".toList ≠ [] ∧
    ((overwriteStep wordLibs nameField "camelCase".toList false true
        (start "json:\"name\"".toList []) ("json".toList, "full_name".toList)).tags.lookup
        "json".toList = some "full_name".toList ∧
      (∀ a, a ≠ "json".toList →
        (overwriteStep wordLibs nameField "camelCase".toList false true
          (start "json:\"name\"".toList []) ("json".toList, "full_name".toList)).tags.lookup a =
          (start "json:\"name\"".toList []).tags.lookup a) ∧
      (overwriteStep wordLibs nameField "camelCase".toList false true
        (start "json:\"name\"".toList []) ("json".toList, "full_name".toList)).stdin =
        (start "json:\"name\"".toList []).stdin ∧
      (overwriteStep wordLibs nameField "camelCase".toList false true
        (start "json:\"name\"".toList []) ("json".toList, "full_name".toList)).stdout =
        (start "json:\"name\"".toList []).stdout ∧
      ("full_name".toList ≠ "name".toList →
        (overwriteStep wordLibs nameField "camelCase".toList false true
          (start "json:\"name\"".toList []) ("json".toList, "full_name".toList)).changed
          = true) ∧
      ("full_name".toList = "name".toList →
        (overwriteStep wordLibs nameField "camelCase".toList false true
          (start "json:\"name\"".toList []) ("json".toList, "full_name".toList)).changed =
          (start "json:\"name\"".toList []).changed)) ∧
    (processField wordLibs "camelCase".toList false true [] []
      [splitOverwrite "json=full_name".toList]
      { names := ["Name".toList], tag := some "\x60json:\"name\"\x60".toList }
      false [] []).1.tag = some "\x60json:\"full_name\"\x60".toList :=
  ⟨by decide, by decide,
    overwrite_explicit_value wordLibs nameField "camelCase".toList false true
      (start "json:\"name\"".toList []) "json".toList "full_name".toList "name".toList
      (by decide) (by decide),
    by decide⟩

/-- C10: with no add and no overwrite directive the result of the delete loop is the input
map without the keys listed in `deleteTags`, every other entry unchanged; the `changed` flag
is set exactly when it was set before or a listed key was present; the console is not
touched; and deleting only absent keys returns the state as it was. Tag
`json:"name" xml:"name"` with `delete=[xml]` becomes `json:"name"`. -/
theorem delete_removes_listed_keys (L : Libs) (field : Field) (caseStyle : Str)
    (interactive force : Bool) (deleteTags : List Str) (st : State) :
    (∀ a, (resolve L field caseStyle interactive force [] deleteTags [] st).tags.lookup a =
        if a ∈ deleteTags then none else st.tags.lookup a) ∧
      ((resolve L field caseStyle interactive force [] deleteTags [] st).changed = true ↔
        st.changed = true ∨ ∃ k ∈ deleteTags, k ∈ st.tags) ∧
      (resolve L field caseStyle interactive force [] deleteTags [] st).stdin = st.stdin ∧
      (resolve L field caseStyle interactive force [] deleteTags [] st).stdout = st.stdout ∧
      ((∀ k ∈ deleteTags, k ∉ st.tags) →
        resolve L field caseStyle interactive force [] deleteTags [] st = st) ∧
      (processField wordLibs "camelCase".toList false true [] ["xml".toList] []
        { names := ["Name".toList], tag := some "\x60json:\"name\" xml:\"name\"\x60".toList }
        false [] []).1.tag = some "\x60json:\"name\"\x60".toList := by
  have hr : resolve L field caseStyle interactive force [] deleteTags [] st =
      deleteLoop deleteTags st := rfl
  rw [hr]
  exact ⟨deleteLoop_lookup deleteTags st, deleteLoop_changed deleteTags st,
    (deleteLoop_console deleteTags st).1, (deleteLoop_console deleteTags st).2,
    deleteLoop_absent deleteTags st, by decide⟩

/-- Counterexample to C4: with `force` and `interactive` both true, the add directive for an
absent key asks for the value, so the tag map depends on the line that is answered. -/
theorem forced_interactive_add_reads_console :
    (resolve wordLibs nameField "camelCase".toList true true ["json".toList] [] []
        (start [] ["custom".toList])).tags ≠
      (resolve wordLibs nameField "camelCase".toList true true ["json".toList] [] []
        (start [] [])).tags ∧
    buildTag (resolve wordLibs nameField "camelCase".toList true true ["json".toList] [] []
        (start [] ["custom".toList])).tags = "json:\"custom\"".toList ∧
    buildTag (resolve wordLibs nameField "camelCase".toList true true ["json".toList] [] []
        (start [] [])).tags = "json:\"name\"".toList ∧
    (resolve wordLibs nameField "camelCase".toList true true ["json".toList] [] []
        (start [] ["custom".toList])).stdin = [] := by
  decide

/-- C4, amended: when `force` is true and either `interactive` is false or every key of
`addTags` is in the tag map and not in `deleteTags`, the directives are resolved without the
console: for any two input streams the resulting tag map and `changed` flag are the same, no
line is read and nothing is printed. -/
theorem forced_never_consults_console (L : Libs) (field : Field) (caseStyle : Str)
    (interactive : Bool) (addTags deleteTags : List Str) (entries : List (Str × Str))
    (tags : TagMap) (changed : Bool) (in1 in2 out1 out2 : List Str)
    (h : interactive = false ∨ ∀ a ∈ addTags, a ∈ tags ∧ a ∉ deleteTags) :
    (resolve L field caseStyle interactive true addTags deleteTags entries
        { tags := tags, changed := changed, stdin := in1, stdout := out1 }).tags =
      (resolve L field caseStyle interactive true addTags deleteTags entries
        { tags := tags, changed := changed, stdin := in2, stdout := out2 }).tags ∧
    (resolve L field caseStyle interactive true addTags deleteTags entries
        { tags := tags, changed := changed, stdin := in1, stdout := out1 }).changed =
      (resolve L field caseStyle interactive true addTags deleteTags entries
        { tags := tags, changed := changed, stdin := in2, stdout := out2 }).changed ∧
    (resolve L field caseStyle interactive true addTags deleteTags entries
        { tags := tags, changed := changed, stdin := in1, stdout := out1 }).stdin = in1 ∧
    (resolve L field caseStyle interactive true addTags deleteTags entries
        { tags := tags, changed := changed, stdin := in1, stdout := out1 }).stdout = out1 := by
  have h1 := resolve_force_withConsole L field caseStyle interactive addTags deleteTags entries
    { tags := tags, changed := changed, stdin := in2, stdout := out2 } in1 out1 h
  have e1 : withConsole { tags := tags, changed := changed, stdin := in2, stdout := out2 }
      in1 out1 = { tags := tags, changed := changed, stdin := in1, stdout := out1 } := rfl
  rw [e1] at h1
  rw [h1]
  exact ⟨rfl, rfl, rfl, rfl⟩

/-- C4, amended, at the field `Name` with tag `json:"x"`, `add=[json]`, interactive and
forced, with and without an answer waiting. -/
theorem forced_never_consults_console_witness :
    ((true = false ∨ ∀ a ∈ ["json".toList],
        a ∈ parseTag "json:\"x\"".toList ∧ a ∉ ([] : List Str))) ∧
    ((resolve wordLibs nameField "camelCase".toList true true ["json".toList] [] []
        { tags := parseTag "json:\"x\"".toList, changed := false, stdin := ["n".toList],
          stdout := [] }).tags =
      (resolve wordLibs nameField "camelCase".toList true true ["json".toList] [] []
        { tags := parseTag "json:\"x\"".toList, changed := false, stdin := [],
          stdout := [] }).tags ∧
    (resolve wordLibs nameField "camelCase".toList true true ["json".toList] [] []
        { tags := parseTag "json:\"x\"".toList, changed := false, stdin := ["n".toList],
          stdout := [] }).changed =
      (resolve wordLibs nameField "camelCase".toList true true ["json".toList] [] []
        { tags := parseTag "json:\"x\"".toList, changed := false, stdin := [],
          stdout := [] }).changed ∧
    (resolve wordLibs nameField "camelCase".toList true true ["json".toList] [] []
        { tags := parseTag "json:\"x\"".toList, changed := false, stdin := ["n".toList],
          stdout := [] }).stdin = ["n".toList] ∧
    (resolve wordLibs nameField "camelCase".toList true true ["json".toList] [] []
        { tags := parseTag "json:\"x\"".toList, changed := false, stdin := ["n".toList],
          stdout := [] }).stdout = []) :=
  ⟨by decide, forced_never_consults_console wordLibs nameField "camelCase".toList true
    ["json".toList] [] [] (parseTag "json:\"x\"".toList) false ["n".toList] [] [] []
    (by decide)⟩

/-- Counterexample to C5: with `force` and `interactive` both true and the key absent, the
first `add=[json]` stores the line that was answered and the second replaces it by the
default. -/
theorem forced_interactive_add_not_idempotent :
    (resolve wordLibs nameField "camelCase".toList true true ["json".toList] [] []
        (resolve wordLibs nameField "camelCase".toList true true ["json".toList] [] []
          (start [] ["custom".toList]))).tags ≠
      (resolve wordLibs nameField "camelCase".toList true true ["json".toList] [] []
        (start [] ["custom".toList])).tags ∧
    buildTag (resolve wordLibs nameField "camelCase".toList true true ["json".toList] [] []
        (start [] ["custom".toList])).tags = "json:\"custom\"".toList ∧
    buildTag (resolve wordLibs nameField "camelCase".toList true true ["json".toList] [] []
        (resolve wordLibs nameField "camelCase".toList true true ["json".toList] [] []
          (start [] ["custom".toList]))).tags = "json:\"name\"".toList := by
  decide

/-- C5, amended: under `force`, when `interactive` is false, or `k` is already in the tag
map, or the line answered to the request for a value is missing, empty or the default value,
applying `add=[k]` a second time returns the state the first application produced: the same
tag map, the `changed` flag as it was, no line read and nothing printed. -/
theorem forced_add_idempotent (L : Libs) (field : Field) (caseStyle : Str)
    (interactive : Bool) (st : State) (k : Str)
    (h : interactive = false ∨ k ∈ st.tags ∨
      ∀ line, st.stdin.head? = some line →
        line = [] ∨ line = defaultTagValue L field caseStyle) :
    resolve L field caseStyle interactive true [k] [] []
        (resolve L field caseStyle interactive true [k] [] [] st) =
      resolve L field caseStyle interactive true [k] [] [] st := by
  have hr : ∀ s, resolve L field caseStyle interactive true [k] [] [] s =
      addStep L field caseStyle interactive true s k := fun _ => rfl
  rw [hr, hr]
  exact addStep_default _ _ _ _ _ _ _ (addStep_force_lookup L field caseStyle interactive st k h)

/-- C5, amended, at the field `Name` with tag `json:"x"`, interactive and forced. -/
theorem forced_add_idempotent_witness :
    ((true = false ∨ "json".toList ∈ (start "json:\"x\"".toList ["custom".toList]).tags ∨
      ∀ line, (start "json:\"x\"".toList ["custom".toList]).stdin.head? = some line →
        line = [] ∨ line = defaultTagValue wordLibs nameField "camelCase".toList)) ∧
    resolve wordLibs nameField "camelCase".toList true true ["json".toList] [] []
        (resolve wordLibs nameField "camelCase".toList true true ["json".toList] [] []
          (start "json:\"x\"".toList ["custom".toList])) =
      resolve wordLibs nameField "camelCase".toList true true ["json".toList] [] []
        (start "json:\"x\"".toList ["custom".toList]) :=
  ⟨Or.inr (Or.inl (by decide)),
    forced_add_idempotent wordLibs nameField "camelCase".toList true
      (start "json:\"x\"".toList ["custom".toList]) "json".toList
      (Or.inr (Or.inl (by decide)))⟩

/-! ## The claims on the codec -/

/-- Counterexample to C1: the map with the single entry `a-b ↦ v` has a non-empty key, no
double quote in key or value and no colon in the key; `buildTag` writes `a-b:"v"`, and
`parseTag` reads that back as `b ↦ v`. -/
theorem roundtrip_fails_on_hyphen_key :
    (∀ k ∈ ((∅ : TagMap).insert "a-b".toList "v".toList).keys,
      k ≠ [] ∧ '"' ∉ k ∧ ':' ∉ k ∧
        ∀ v ∈ ((∅ : TagMap).insert "a-b".toList "v".toList).lookup k, '"' ∉ v) ∧
    buildTag ((∅ : TagMap).insert "a-b".toList "v".toList) = "a-b:\"v\"".toList ∧
    parseTag (buildTag ((∅ : TagMap).insert "a-b".toList "v".toList)) =
      (∅ : TagMap).insert "b".toList "v".toList ∧
    parseTag (buildTag ((∅ : TagMap).insert "a-b".toList "v".toList)) ≠
      (∅ : TagMap).insert "a-b".toList "v".toList := by
  decide

/-- C1, amended: for every tag map whose keys are non-empty words over `[0-9A-Za-z_]` and
whose values hold no double quote, `parseTag (buildTag m) = m`. -/
theorem parse_build_roundtrip (m : TagMap)
    (hk : ∀ k ∈ m, k ≠ [] ∧ ∀ c ∈ k, isWordChar c = true)
    (hv : ∀ k v, m.lookup k = some v → '"' ∉ v) :
    parseTag (buildTag m) = m :=
  parseTag_buildTag_of_words m hk hv

/-- C1, amended, at the map `json ↦ name, xml ↦ n`. -/
theorem parse_build_roundtrip_witness :
    (∀ k ∈ parseTag "xml:\"n\" json:\"name\"".toList,
      k ≠ [] ∧ ∀ c ∈ k, isWordChar c = true) ∧
    (∀ k v, (parseTag "xml:\"n\" json:\"name\"".toList).lookup k = some v → '"' ∉ v) ∧
    parseTag (buildTag (parseTag "xml:\"n\" json:\"name\"".toList)) =
      parseTag "xml:\"n\" json:\"name\"".toList :=
  have hk : ∀ k ∈ (parseTag "xml:\"n\" json:\"name\"".toList).keys,
      k ≠ [] ∧ (∀ c ∈ k, isWordChar c = true) ∧
        ∀ v ∈ (parseTag "xml:\"n\" json:\"name\"".toList).lookup k, '"' ∉ v := by decide
  ⟨fun k h => ⟨(hk k (Finmap.mem_keys.mpr h)).1, (hk k (Finmap.mem_keys.mpr h)).2.1⟩,
    fun k v h => (hk k (Finmap.mem_keys.mpr (Finmap.mem_of_lookup_eq_some h))).2.2 v h,
    parse_build_roundtrip (parseTag "xml:\"n\" json:\"name\"".toList)
      (fun k h => ⟨(hk k (Finmap.mem_keys.mpr h)).1, (hk k (Finmap.mem_keys.mpr h)).2.1⟩)
      (fun k v h => (hk k (Finmap.mem_keys.mpr (Finmap.mem_of_lookup_eq_some h))).2.2 v h)⟩

/-- C2: `buildTag m` is the entries of `m`, listed in strictly ascending order of key, each
written `key:"value"`, joined by one space; maps with the same contents give the same text,
and the map `json ↦ name, xml ↦ name, db ↦ name` gives `db:"name" json:"name" xml:"name"`
in whatever order its entries were stored. -/
theorem buildTag_lists_sorted_entries (m : TagMap) :
    (∃ es : List (Str × Str),
      (es.map Prod.fst).Sorted (· < ·) ∧
      (∀ k v, (k, v) ∈ es ↔ m.lookup k = some v) ∧
      buildTag m = " ".toList.intercalate
        (es.map (fun e => e.1 ++ ":\"".toList ++ e.2 ++ "\"".toList))) ∧
    (∀ m' : TagMap, (∀ k, m'.lookup k = m.lookup k) → buildTag m' = buildTag m) ∧
    buildTag ((((∅ : TagMap).insert "json".toList "name".toList).insert
      "xml".toList "name".toList).insert "db".toList "name".toList) =
        "db:\"name\" json:\"name\" xml:\"name\"".toList ∧
    buildTag ((((∅ : TagMap).insert "db".toList "name".toList).insert
      "xml".toList "name".toList).insert "json".toList "name".toList) =
        "db:\"name\" json:\"name\" xml:\"name\"".toList ∧
    buildTag (parseTag "xml:\"name\" json:\"name\" db:\"name\"".toList) =
        "db:\"name\" json:\"name\" xml:\"name\"".toList := by
  refine ⟨⟨(sortStrings m.keys).map (fun k => (k, (m.lookup k).getD [])), ?_, ?_, ?_⟩,
    fun m' h => by rw [Finmap.ext_lookup h], by decide, by decide, by decide⟩
  · rw [List.map_map]
    have : (Prod.fst ∘ fun k : Str => (k, (m.lookup k).getD [])) = id := rfl
    rw [this, List.map_id]
    exact sortStrings_sorted _
  · intro k v
    rw [List.mem_map]
    constructor
    · rintro ⟨a, ha, he⟩
      obtain ⟨rfl, rfl⟩ := Prod.mk.inj he
      obtain ⟨b, hb⟩ := Finmap.mem_iff.mp (Finmap.mem_keys.mp ((mem_sortStrings _ _).mp ha))
      rw [hb]; rfl
    · intro h
      exact ⟨k, (mem_sortStrings _ _).mpr (Finmap.mem_keys.mpr (Finmap.mem_of_lookup_eq_some h)),
        by rw [h]; rfl⟩
  · unfold buildTag
    rw [List.map_map]
    rfl

/-! ## The empty tag string -/

theorem intercalate_ne_nil (sep x : Str) (l : List Str) (hx : x ≠ []) :
    sep.intercalate (x :: l) ≠ [] := by
  cases l with
  | nil => rw [intercalate_one]; exact hx
  | cons y ys =>
    rw [intercalate_two]
    intro h
    exact hx (List.append_eq_nil.mp h).1

theorem renderEntry_ne_nil (k v : Str) : renderEntry k v ≠ [] := by
  intro h
  have hl := renderEntry_length k v
  rw [h] at hl
  simp at hl

/-- Only the empty map is written as the empty string. -/
theorem buildTag_eq_nil_iff (m : TagMap) : buildTag m = [] ↔ m = ∅ := by
  constructor
  · intro h
    apply Finmap.ext_lookup
    intro a
    rw [Finmap.lookup_empty, Finmap.lookup_eq_none]
    intro ha
    have hs : a ∈ sortStrings m.keys := (mem_sortStrings _ _).mpr (Finmap.mem_keys.mpr ha)
    unfold buildTag at h
    cases hks : sortStrings m.keys with
    | nil => rw [hks] at hs; simp at hs
    | cons x l =>
      rw [hks, List.map_cons] at h
      exact intercalate_ne_nil _ _ _ (renderEntry_ne_nil _ _) h
  · intro h
    subst h
    decide

theorem processField_tag (L : Libs) (caseStyle : Str) (interactive force : Bool)
    (addTags deleteTags : List Str) (entries : List (Str × Str))
    (field : Field) (changed : Bool) (stdin stdout : List Str) :
    (processField L caseStyle interactive force addTags deleteTags entries field changed
        stdin stdout).1.tag =
      if buildTag (resolve L field caseStyle interactive force addTags deleteTags entries
          { tags := parseTag (tagValue field), changed := changed, stdin := stdin,
            stdout := stdout }).tags = []
      then none
      else some ("\x60".toList ++ buildTag (resolve L field caseStyle interactive force addTags
          deleteTags entries
          { tags := parseTag (tagValue field), changed := changed, stdin := stdin,
            stdout := stdout }).tags ++ "\x60".toList) := by
  unfold processField
  simp only
  split_ifs <;> rfl

theorem processField_state (L : Libs) (caseStyle : Str) (interactive force : Bool)
    (addTags deleteTags : List Str) (entries : List (Str × Str))
    (field : Field) (changed : Bool) (stdin stdout : List Str) :
    (processField L caseStyle interactive force addTags deleteTags entries field changed
        stdin stdout).2 =
      resolve L field caseStyle interactive force addTags deleteTags entries
        { tags := parseTag (tagValue field), changed := changed, stdin := stdin,
          stdout := stdout } := by
  unfold processField
  simp only
  split_ifs <;> rfl

theorem processField_names (L : Libs) (caseStyle : Str) (interactive force : Bool)
    (addTags deleteTags : List Str) (entries : List (Str × Str))
    (field : Field) (changed : Bool) (stdin stdout : List Str) :
    (processField L caseStyle interactive force addTags deleteTags entries field changed
        stdin stdout).1.names = field.names := by
  unfold processField
  simp only
  split_ifs <;> rfl

/-! ## The claims on the order of the loops and on the rewritten tag -/

/-- C11: delete, then add, then overwrite. A key `k` listed in `deleteTags` and in `addTags`
and named by no overwrite entry holds `defaultTagValue field caseStyle` in the result when
`interactive` is false, whatever it held before, and the `changed` flag is set; the add loop
runs on the state the delete loop leaves and the overwrite loop on the state the add loop
leaves. -/
theorem delete_then_add_gives_default (L : Libs) (field : Field) (caseStyle : Str)
    (force : Bool) (addTags deleteTags : List Str) (entries : List (Str × Str)) (st : State)
    (k : Str) (hd : k ∈ deleteTags) (ha : k ∈ addTags) (he : k ∉ entries.map Prod.fst) :
    (resolve L field caseStyle false force addTags deleteTags entries st).tags.lookup k =
        some (defaultTagValue L field caseStyle) ∧
      (resolve L field caseStyle false force addTags deleteTags entries st).changed = true ∧
      resolve L field caseStyle false force addTags deleteTags entries st =
        overwriteLoop L field caseStyle false force entries
          (addLoop L field caseStyle false force addTags (deleteLoop deleteTags st)) := by
  have hdel : (deleteLoop deleteTags st).tags.lookup k = none := by
    rw [deleteLoop_lookup, if_pos hd]
  have h := addLoop_quiet_absent L field caseStyle force addTags (deleteLoop deleteTags st) k
    ha hdel
  refine ⟨?_, overwriteLoop_changed_mono _ _ _ _ _ _ _ h.2, rfl⟩
  unfold resolve
  rw [overwriteLoop_lookup_of_not_mem _ _ _ _ _ _ _ _ he]
  exact h.1

/-- C11 at the field `Name` with tag `json:"custom"`, `delete=[json]` and `add=[json]`: the
new tag reads `json:"name"`. -/
theorem delete_then_add_gives_default_witness :
    "json".toList ∈ ["json".toList] ∧ "json".toList ∈ ["json".toList] ∧
    "json".toList ∉ ([] : List (Str × Str)).map Prod.fst ∧
    ((resolve wordLibs nameField "camelCase".toList false false ["json".toList]
        ["json".toList] [] (start "json:\"custom\"".toList [])).tags.lookup "json".toList =
        some (defaultTagValue wordLibs nameField "camelCase".toList) ∧
      (resolve wordLibs nameField "camelCase".toList false false ["json".toList]
        ["json".toList] [] (start "json:\"custom\"".toList [])).changed = true ∧
      resolve wordLibs nameField "camelCase".toList false false ["json".toList]
        ["json".toList] [] (start "json:\"custom\"".toList []) =
        overwriteLoop wordLibs nameField "camelCase".toList false false []
          (addLoop wordLibs nameField "camelCase".toList false false ["json".toList]
            (deleteLoop ["json".toList] (start "json:\"custom\"".toList [])))) ∧
    (processField wordLibs "camelCase".toList false false ["json".toList] ["json".toList] []
      { names := ["Name".toList], tag := some "\x60json:\"custom\"\x60".toList }
      false [] []).1.tag = some "\x60json:\"name\"\x60".toList :=
  ⟨by decide, by decide, by decide,
    delete_then_add_gives_default wordLibs nameField "camelCase".toList false
      ["json".toList] ["json".toList] [] (start "json:\"custom\"".toList []) "json".toList
      (by decide) (by decide) (by decide),
    by decide⟩

/-- C12: `buildTag m` is the empty string exactly when `m` is the empty map; so the field
that `ProcessFile` rewrites has no tag exactly when the resolved map is empty, and otherwise
its tag is `buildTag` of the resolved map between back quotes. -/
theorem tag_cleared_iff_map_empty (L : Libs) (caseStyle : Str) (interactive force : Bool)
    (addTags deleteTags : List Str) (entries : List (Str × Str))
    (field : Field) (changed : Bool) (stdin stdout : List Str) (m : TagMap) :
    (buildTag m = [] ↔ m = ∅) ∧
    ((processField L caseStyle interactive force addTags deleteTags entries field changed
        stdin stdout).1.tag = none ↔
      (processField L caseStyle interactive force addTags deleteTags entries field changed
        stdin stdout).2.tags = ∅) ∧
    ((processField L caseStyle interactive force addTags deleteTags entries field changed
        stdin stdout).2.tags ≠ ∅ →
      (processField L caseStyle interactive force addTags deleteTags entries field changed
        stdin stdout).1.tag =
        some ("\x60".toList ++ buildTag (processField L caseStyle interactive force addTags
          deleteTags entries field changed stdin stdout).2.tags ++ "\x60".toList)) := by
  refine ⟨buildTag_eq_nil_iff m, ?_, ?_⟩
  · rw [processField_tag, processField_state, ← buildTag_eq_nil_iff]
    split_ifs with h
    · simp [h]
    · simp [h]
  · intro hne
    rw [processField_tag, processField_state]
    rw [processField_state] at hne
    rw [if_neg (fun h => hne ((buildTag_eq_nil_iff _).mp h))]

/-! ## What `parseTag` returns -/

theorem matchAt_words (s k v rest : Str) (h : matchAt s = some (k, v, rest)) :
    k ≠ [] ∧ (∀ c ∈ k, isWordChar c = true) ∧ '"' ∉ v := by
  unfold matchAt at h
  split at h
  · rename_i a b t h1 h2
    split at h
    · simp only [Option.some.injEq, Prod.mk.injEq] at h
      obtain ⟨rfl, rfl, -⟩ := h
      refine ⟨by rw [h1]; simp, fun c hc => List.mem_takeWhile_imp hc, fun hq => ?_⟩
      have := List.mem_takeWhile_imp hq
      simp [isNotQuote] at this
    · exact absurd h (by simp)
  · exact absurd h (by simp)

theorem findAllSubmatch_words (n : Nat) (s : Str) (e : Str × Str)
    (h : e ∈ findAllSubmatch n s) :
    e.1 ≠ [] ∧ (∀ c ∈ e.1, isWordChar c = true) ∧ '"' ∉ e.2 := by
  induction n generalizing s with
  | zero => simp [findAllSubmatch] at h
  | succ n ih =>
    cases s with
    | nil => simp [findAllSubmatch] at h
    | cons c cs =>
      unfold findAllSubmatch at h
      cases hm : matchAt (c :: cs) with
      | none =>
        rw [hm] at h
        exact ih cs h
      | some r =>
        obtain ⟨k, v, rest⟩ := r
        rw [hm] at h
        rcases List.mem_cons.mp h with h1 | h1
        · subst h1
          exact matchAt_words _ _ _ _ hm
        · exact ih rest h1

theorem foldl_insert_mem (l : List (Str × Str)) (init : TagMap) (a v : Str)
    (h : (l.foldl (fun result m => result.insert m.1 m.2) init).lookup a = some v) :
    (a, v) ∈ l ∨ init.lookup a = some v := by
  induction l generalizing init with
  | nil => exact Or.inr h
  | cons e rest ih =>
    rw [List.foldl_cons] at h
    rcases ih _ h with h1 | h1
    · exact Or.inl (List.mem_cons_of_mem _ h1)
    · by_cases hae : a = e.1
      · subst hae
        rw [Finmap.lookup_insert] at h1
        left
        have : e.2 = v := Option.some.inj h1
        rw [← this]
        exact List.mem_cons_self _ _
      · rw [Finmap.lookup_insert_of_ne _ hae] at h1
        exact Or.inr h1

/-- The keys `parseTag` returns are non-empty words and the values hold no double quote. -/
theorem parseTag_words (s k v : Str) (h : (parseTag s).lookup k = some v) :
    k ≠ [] ∧ (∀ c ∈ k, isWordChar c = true) ∧ '"' ∉ v := by
  unfold parseTag at h
  rcases foldl_insert_mem _ _ _ _ h with h1 | h1
  · exact findAllSubmatch_words _ _ _ h1
  · rw [Finmap.lookup_empty] at h1
    exact absurd h1 (by simp)

theorem parseTag_buildTag_parseTag (s : Str) :
    parseTag (buildTag (parseTag s)) = parseTag s := by
  apply parseTag_buildTag_of_words
  · intro k hk
    obtain ⟨v, hv⟩ := Finmap.mem_iff.mp hk
    exact ⟨(parseTag_words s k v hv).1, (parseTag_words s k v hv).2.1⟩
  · intro k v hv
    exact (parseTag_words s k v hv).2.2

/-! ## A flag that stays down -/

theorem deleteStep_shape (st : State) (key : Str) :
    ((deleteStep st key).tags = st.tags ∧ (deleteStep st key).changed = st.changed) ∨
      (deleteStep st key).changed = true := by
  unfold deleteStep
  by_cases hk : key ∈ st.tags <;> simp [hk]

theorem foldl_flag_down {α : Type} (f : State → α → State)
    (hshape : ∀ st x, ((f st x).tags = st.tags ∧ (f st x).changed = st.changed) ∨
      (f st x).changed = true)
    (l : List α) (st : State) (h : (l.foldl f st).changed = false) :
    (l.foldl f st).tags = st.tags ∧ st.changed = false := by
  induction l generalizing st with
  | nil => exact ⟨rfl, h⟩
  | cons x rest ih =>
    rw [List.foldl_cons] at h ⊢
    obtain ⟨h1, h2⟩ := ih _ h
    rcases hshape st x with ⟨h3, h4⟩ | h3
    · exact ⟨h1.trans h3, h4 ▸ h2⟩
    · rw [h3] at h2; exact absurd h2 (by simp)

/-- When the flag is down after the three loops, the tag map is the one they started from. -/
theorem resolve_flag_down (L : Libs) (field : Field) (caseStyle : Str)
    (interactive force : Bool) (addTags deleteTags : List Str) (entries : List (Str × Str))
    (st : State)
    (h : (resolve L field caseStyle interactive force addTags deleteTags entries st).changed
      = false) :
    (resolve L field caseStyle interactive force addTags deleteTags entries st).tags =
      st.tags := by
  unfold resolve overwriteLoop addLoop deleteLoop at h ⊢
  obtain ⟨h1, h2⟩ := foldl_flag_down _ (fun s e => by
    rcases overwriteStep_shape L field caseStyle interactive force s e with h | ⟨v, _, _, h⟩
    · exact Or.inl h
    · exact Or.inr h) _ _ h
  obtain ⟨h3, h4⟩ := foldl_flag_down _ (fun s e => by
    rcases addStep_shape L field caseStyle interactive force s e with h | ⟨v, _, h⟩
    · exact Or.inl h
    · exact Or.inr h) _ _ h2
  obtain ⟨h5, _⟩ := foldl_flag_down _ deleteStep_shape _ _ h4
  exact h1.trans (h3.trans h5)

/-! ## The claims on the flag and on the keys -/

/-- Counterexample to C13, in both directions. The field `Name` with tag
`xml:"a" json:"b"` and no directive keeps the flag down and yet holds `json:"b" xml:"a"`
afterwards; the field `Name` with tag `json:"name"`, `delete=[json]` and `add=[json]` raises
the flag and holds `json:"name"` as before. -/
theorem changed_is_not_tag_difference :
    ((processField wordLibs "camelCase".toList false false [] [] []
        { names := ["Name".toList], tag := some "\x60xml:\"a\" json:\"b\"\x60".toList }
        false [] []).2.changed = false ∧
      (processField wordLibs "camelCase".toList false false [] [] []
        { names := ["Name".toList], tag := some "\x60xml:\"a\" json:\"b\"\x60".toList }
        false [] []).1.tag = some "\x60json:\"b\" xml:\"a\"\x60".toList) ∧
    ((processField wordLibs "camelCase".toList false false ["json".toList] ["json".toList] []
        { names := ["Name".toList], tag := some "\x60json:\"name\"\x60".toList }
        false [] []).2.changed = true ∧
      (processField wordLibs "camelCase".toList false false ["json".toList] ["json".toList] []
        { names := ["Name".toList], tag := some "\x60json:\"name\"\x60".toList }
        false [] []).1.tag = some "\x60json:\"name\"\x60".toList) := by
  decide

/-- C13, amended: when a field leaves the `changed` flag down, the resolved map is
`parseTag s` for the field's tag string `s`, so the field then holds the canonical form
`buildTag (parseTag s)` of `s` between back quotes (no tag when that is empty), which is `s`
itself when `s` is canonical. Hence a tag string that differs from the canonical form of `s`
after rewriting comes with the flag raised. -/
theorem flag_down_keeps_canonical_tag (L : Libs) (caseStyle : Str) (interactive force : Bool)
    (addTags deleteTags : List Str) (entries : List (Str × Str))
    (field : Field) (stdin stdout : List Str)
    (h : (processField L caseStyle interactive force addTags deleteTags entries field false
      stdin stdout).2.changed = false) :
    (processField L caseStyle interactive force addTags deleteTags entries field false
        stdin stdout).2.tags = parseTag (tagValue field) ∧
      (processField L caseStyle interactive force addTags deleteTags entries field false
        stdin stdout).1.tag =
        (if buildTag (parseTag (tagValue field)) = [] then none
          else some ("\x60".toList ++ buildTag (parseTag (tagValue field)) ++ "\x60".toList)) ∧
      (buildTag (parseTag (tagValue field)) = tagValue field →
        buildTag (processField L caseStyle interactive force addTags deleteTags entries field
          false stdin stdout).2.tags = tagValue field) := by
  rw [processField_state] at h
  have ht := resolve_flag_down _ _ _ _ _ _ _ _ _ h
  simp only at ht
  rw [processField_tag, processField_state, ht]
  exact ⟨rfl, rfl, fun hc => hc⟩

/-- C13, amended, at the field `Name` with tag `xml:"a" json:"b"` and `delete=[db]`. -/
theorem flag_down_keeps_canonical_tag_witness :
    (processField wordLibs "camelCase".toList false false [] ["db".toList] []
      { names := ["Name".toList], tag := some "\x60xml:\"a\" json:\"b\"\x60".toList }
      false [] []).2.changed = false ∧
    ((processField wordLibs "camelCase".toList false false [] ["db".toList] []
        { names := ["Name".toList], tag := some "\x60xml:\"a\" json:\"b\"\x60".toList }
        false [] []).2.tags =
        parseTag (tagValue
          { names := ["Name".toList], tag := some "\x60xml:\"a\" json:\"b\"\x60".toList }) ∧
      (processField wordLibs "camelCase".toList false false [] ["db".toList] []
        { names := ["Name".toList], tag := some "\x60xml:\"a\" json:\"b\"\x60".toList }
        false [] []).1.tag =
        (if buildTag (parseTag (tagValue
            { names := ["Name".toList], tag := some "\x60xml:\"a\" json:\"b\"\x60".toList }))
            = [] then none
          else some ("\x60".toList ++ buildTag (parseTag (tagValue
            { names := ["Name".toList], tag := some "\x60xml:\"a\" json:\"b\"\x60".toList }))
            ++ "\x60".toList)) ∧
      (buildTag (parseTag (tagValue
          { names := ["Name".toList], tag := some "\x60xml:\"a\" json:\"b\"\x60".toList })) =
          tagValue
            { names := ["Name".toList], tag := some "\x60xml:\"a\" json:\"b\"\x60".toList } →
        buildTag (processField wordLibs "camelCase".toList false false [] ["db".toList] []
          { names := ["Name".toList], tag := some "\x60xml:\"a\" json:\"b\"\x60".toList }
          false [] []).2.tags =
          tagValue
            { names := ["Name".toList], tag := some "\x60xml:\"a\" json:\"b\"\x60".toList })) :=
  ⟨by decide, flag_down_keeps_canonical_tag wordLibs "camelCase".toList false false []
    ["db".toList] []
    { names := ["Name".toList], tag := some "\x60xml:\"a\" json:\"b\"\x60".toList } [] []
    (by decide)⟩

/-! ## The keys of the resolved map -/

theorem deleteLoop_mem (deleteTags : List Str) (st : State) (a : Str)
    (h : a ∈ (deleteLoop deleteTags st).tags) : a ∈ st.tags := by
  obtain ⟨b, hb⟩ := Finmap.mem_iff.mp h
  rw [deleteLoop_lookup] at hb
  by_cases ha : a ∈ deleteTags
  · rw [if_pos ha] at hb; exact absurd hb (by simp)
  · rw [if_neg ha] at hb; exact Finmap.mem_of_lookup_eq_some hb

theorem addLoop_mem (L : Libs) (field : Field) (caseStyle : Str)
    (interactive force : Bool) (addTags : List Str) (st : State) (a : Str)
    (h : a ∈ (addLoop L field caseStyle interactive force addTags st).tags) :
    a ∈ st.tags ∨ a ∈ addTags := by
  induction addTags generalizing st with
  | nil => exact Or.inl h
  | cons key rest ih =>
    simp only [addLoop, List.foldl_cons] at ih h
    rcases ih _ h with h1 | h1
    · rcases addStep_shape L field caseStyle interactive force st key with ⟨h2, _⟩ | ⟨v, h2, _⟩
      · rw [h2] at h1; exact Or.inl h1
      · rw [h2, Finmap.mem_insert] at h1
        rcases h1 with h1 | h1
        · exact Or.inr (h1 ▸ List.mem_cons_self _ _)
        · exact Or.inl h1
    · exact Or.inr (List.mem_cons_of_mem _ h1)

/-- A key of the resolved map was in the map before or is an add key. -/
theorem resolve_mem (L : Libs) (field : Field) (caseStyle : Str)
    (interactive force : Bool) (addTags deleteTags : List Str) (entries : List (Str × Str))
    (st : State) (a : Str)
    (h : a ∈ (resolve L field caseStyle interactive force addTags deleteTags entries st).tags) :
    a ∈ st.tags ∨ a ∈ addTags := by
  unfold resolve at h
  rw [overwriteLoop_mem_iff] at h
  rcases addLoop_mem _ _ _ _ _ _ _ _ h with h1 | h1
  · exact Or.inl (deleteLoop_mem _ _ _ h1)
  · exact Or.inr h1

theorem not_mem_splitCommaSeparated (L : Libs) (input : List Str) :
    [] ∉ splitCommaSeparated L input := by
  unfold splitCommaSeparated
  intro h
  have := (List.mem_filter.mp h).2
  simp at this

/-- Counterexample to C14: `ProcessFile` called with the empty string among `addTags` stores
a value under the empty key; the field `Name` then holds the tag `:"name"`. -/
theorem empty_add_key_is_stored :
    [] ∈ (processField wordLibs "camelCase".toList false true [[]] [] [] nameField
      false [] []).2.tags ∧
    (processField wordLibs "camelCase".toList false true [[]] [] [] nameField
      false [] []).1.tag = some "\x60:\"name\"\x60".toList := by
  decide

/-- C14, amended: `parseTag` returns no empty key; the map `ProcessFile` holds for a field
after the delete, add and overwrite loops contains no empty key when `addTags` contains no
empty string; and the lists `splitCommaSeparated` hands to `ProcessFile` contain no empty
string. A value may be empty. -/
theorem no_empty_key (L : Libs) (caseStyle : Str) (interactive force : Bool)
    (addTags deleteTags : List Str) (entries : List (Str × Str))
    (field : Field) (changed : Bool) (stdin stdout : List Str) (s : Str)
    (h : [] ∉ addTags) :
    [] ∉ parseTag s ∧
      [] ∉ (processField L caseStyle interactive force addTags deleteTags entries field
        changed stdin stdout).2.tags ∧
      (∀ input, [] ∉ splitCommaSeparated L input) ∧
      (parseTag "json:\"\"".toList).lookup "json".toList = some [] := by
  have hp : ∀ t, [] ∉ parseTag t := by
    intro t ht
    obtain ⟨v, hv⟩ := Finmap.mem_iff.mp ht
    exact (parseTag_words t [] v hv).1 rfl
  refine ⟨hp s, ?_, not_mem_splitCommaSeparated L, by decide⟩
  rw [processField_state]
  intro hm
  rcases resolve_mem _ _ _ _ _ _ _ _ _ _ hm with h1 | h1
  · exact hp _ h1
  · exact h h1

/-- C14, amended, at the field `Name` with tag `json:"x"`, `add=[xml]`, `delete=[json]` and
`overwrite=[xml=]`. -/
theorem no_empty_key_witness :
    [] ∉ ["xml".toList] ∧
    ([] ∉ parseTag "json:\"x\" :\"y\"".toList ∧
      [] ∉ (processField wordLibs "camelCase".toList false true ["xml".toList]
        ["json".toList] [splitOverwrite "xml=".toList]
        { names := ["Name".toList], tag := some "\x60json:\"x\"\x60".toList }
        false [] []).2.tags ∧
      (∀ input, [] ∉ splitCommaSeparated wordLibs input) ∧
      (parseTag "json:\"\"".toList).lookup "json".toList = some []) :=
  ⟨by decide, no_empty_key wordLibs "camelCase".toList false true ["xml".toList]
    ["json".toList] [splitOverwrite "xml=".toList]
    { names := ["Name".toList], tag := some "\x60json:\"x\"\x60".toList }
    false [] [] "json:\"x\" :\"y\"".toList (by decide)⟩

/-! ## The target -/

theorem splitSep_ne_nil (sep : Char) (s : Str) : splitSep sep s ≠ [] := by
  cases s with
  | nil => simp [splitSep]
  | cons c cs =>
    unfold splitSep
    split_ifs
    · simp
    · split <;> simp

theorem splitSep_length (sep : Char) (s : Str) :
    (splitSep sep s).length = s.count sep + 1 := by
  induction s with
  | nil => simp [splitSep]
  | cons c cs ih =>
    unfold splitSep
    by_cases h : c = sep
    · subst h
      simp [ih]
    · rw [if_neg h]
      have hc : (c :: cs).count sep = cs.count sep := by
        rw [List.count_cons]
        have : (c == sep) = false := by simp [h]
        simp [this]
      rw [hc, ← ih]
      cases hs : splitSep sep cs with
      | nil => exact absurd hs (splitSep_ne_nil sep cs)
      | cons part parts => simp

theorem splitSep_of_not_mem (sep : Char) (s : Str) (h : sep ∉ s) : splitSep sep s = [s] := by
  induction s with
  | nil => rfl
  | cons c cs ih =>
    have h1 : c ≠ sep := fun e => h (e ▸ List.mem_cons_self _ _)
    have h2 : sep ∉ cs := fun e => h (List.mem_cons_of_mem _ e)
    unfold splitSep
    rw [if_neg h1, ih h2]

theorem splitSep_append (sep : Char) (a b : Str) (h : sep ∉ a) :
    splitSep sep (a ++ sep :: b) = a :: splitSep sep b := by
  induction a with
  | nil => simp [splitSep]
  | cons c cs ih =>
    have h1 : c ≠ sep := fun e => h (e ▸ List.mem_cons_self _ _)
    have h2 : sep ∉ cs := fun e => h (List.mem_cons_of_mem _ e)
    have e : (c :: cs) ++ sep :: b = c :: (cs ++ sep :: b) := rfl
    rw [e, splitSep, if_neg h1, ih h2]

theorem ParseTarget_many_at (fs : FileSystem) (target : Str) (h : 2 ≤ target.count '@') :
    ParseTarget fs target = .error .invalidStructFormat := by
  have hne : target ≠ [] := by
    intro e; subst e; simp at h
  have hmem : '@' ∈ target := List.count_pos_iff.mp (by omega)
  have hl := splitSep_length '@' target
  unfold ParseTarget
  rw [if_neg hne, if_pos hmem]
  split
  · rename_i filePath structName heq
    rw [heq] at hl
    simp at hl
    omega
  · rfl

theorem ParseTarget_one_at (fs : FileSystem) (a b : Str) (info : FileInfo)
    (ha : '@' ∉ a) (hb : '@' ∉ b) (hfs : fs a = some info) :
    ParseTarget fs (a ++ '@' :: b) =
      .ok { targetType := .TargetTypeStruct, FilePath := a, StructName := b } := by
  have hne : a ++ '@' :: b ≠ [] := by simp
  have hmem : '@' ∈ a ++ '@' :: b := by simp
  unfold ParseTarget
  rw [if_neg hne, if_pos hmem, splitSep_append _ _ _ ha, splitSep_of_not_mem _ _ hb]
  simp only [hfs]

/-- Counterexample to C15: the target `temp_test.go@` has one `@` and names an existing
file; `ParseTarget` returns `TargetTypeStruct` with the empty `StructName`, for which the
loop of `ProcessFile` skips no type declaration, so the types `A` and `B` are both
processed. -/
theorem empty_struct_name_selects_all :
    ParseTarget tempTestFs "temp_test.go@".toList =
      .ok { targetType := .TargetTypeStruct, FilePath := "temp_test.go".toList,
            StructName := [] } ∧
    skipsType [] "A".toList = false ∧ skipsType [] "B".toList = false :=
  ⟨rfl, by decide, by decide⟩

/-- C15, amended: `ParseTarget` returns an error for the empty target and for every target
with two or more `@`, whatever the file system holds; for a target with exactly one `@` whose
text before the `@` names an existing path it returns `TargetTypeStruct` with `FilePath` the
text before the `@` and `StructName` the text after it; and when that `StructName` is not
empty `ProcessFile` processes the type declarations with that name and skips all others.
`temp_test.go@MyStruct` gives `StructName` `MyStruct`. -/
theorem ParseTarget_struct_form (fs : FileSystem) :
    ParseTarget fs [] = .error .emptyTarget ∧
    (∀ target, 2 ≤ target.count '@' → ParseTarget fs target = .error .invalidStructFormat) ∧
    (∀ a b info, '@' ∉ a → '@' ∉ b → fs a = some info →
      ParseTarget fs (a ++ '@' :: b) =
        .ok { targetType := .TargetTypeStruct, FilePath := a, StructName := b }) ∧
    (∀ structName name, structName ≠ [] →
      (skipsType structName name = false ↔ name = structName)) ∧
    ParseTarget tempTestFs "temp_test.go@MyStruct".toList =
      .ok { targetType := .TargetTypeStruct, FilePath := "temp_test.go".toList,
            StructName := "MyStruct".toList } := by
  refine ⟨rfl, ParseTarget_many_at fs, ParseTarget_one_at fs, ?_, rfl⟩
  intro structName name hne
  simp [skipsType, hne]

/-! ## Overwrite directives -/

theorem splitOverwrite_without_eq (ot : Str) (h : '=' ∉ ot) : splitOverwrite ot = (ot, []) := by
  have hp : ∀ c ∈ ot, (c != '=') = true := by
    intro c hc
    have : c ≠ '=' := fun e => h (e ▸ hc)
    simp [this]
  unfold splitOverwrite
  rw [List.takeWhile_eq_self_iff.mpr hp, List.dropWhile_eq_nil_iff.mpr hp]
  rfl

theorem splitOverwrite_at_eq (a b : Str) (h : '=' ∉ a) :
    splitOverwrite (a ++ '=' :: b) = (a, b) := by
  have hp : ∀ c ∈ a, (c != '=') = true := by
    intro c hc
    have : c ≠ '=' := fun e => h (e ▸ hc)
    simp [this]
  have h1 := takeWhile_append_stop (fun c => c != '=') a b '=' hp (by decide)
  unfold splitOverwrite
  rw [h1.1, h1.2]
  rfl

theorem overwriteMap_last (overwriteTags : List Str) (ot : Str) :
    (overwriteMap (overwriteTags ++ [ot])).lookup (splitOverwrite ot).1 =
      some (splitOverwrite ot).2 := by
  unfold overwriteMap
  rw [List.foldl_append]
  exact Finmap.lookup_insert _

theorem overwriteStep_quiet (L : Libs) (field : Field) (caseStyle : Str)
    (interactive force : Bool) (st : State) (key v c : Str)
    (h : st.tags.lookup key = some c) (hq : interactive = false ∨ force = true) :
    overwriteStep L field caseStyle interactive force st (key, v) =
      if c ≠ overwriteNewVal L field caseStyle v then
        { st with tags := st.tags.insert key (overwriteNewVal L field caseStyle v),
                  changed := true }
      else st := by
  have hgo : overwriteGo L field caseStyle interactive force st key v c = (true, st) := by
    rcases hq with hq | hq
    · subst hq; exact overwriteGo_quiet _ _ _ _ _ _ _ _
    · subst hq; exact overwriteGo_force _ _ _ _ _ _ _ _
  simp only [overwriteStep, h, hgo, overwriteNewVal]
  rfl

theorem overwriteStep_quiet_lookup (L : Libs) (field : Field) (caseStyle : Str)
    (interactive force : Bool) (st : State) (key v c : Str)
    (h : st.tags.lookup key = some c) (hq : interactive = false ∨ force = true) :
    (overwriteStep L field caseStyle interactive force st (key, v)).tags.lookup key =
      some (overwriteNewVal L field caseStyle v) := by
  rw [overwriteStep_quiet L field caseStyle interactive force st key v c h hq]
  by_cases hc : c = overwriteNewVal L field caseStyle v
  · rw [if_neg (not_not.mpr hc), h, hc]
  · rw [if_pos hc]
    exact Finmap.lookup_insert _

/-- An overwrite step leaves map and flag alone, or stores `overwriteNewVal` under a key the
map holds and sets the flag. -/
theorem overwriteStep_cases (L : Libs) (field : Field) (caseStyle : Str)
    (interactive force : Bool) (st : State) (entry : Str × Str) :
    ((overwriteStep L field caseStyle interactive force st entry).tags = st.tags ∧
      (overwriteStep L field caseStyle interactive force st entry).changed = st.changed) ∨
    (entry.1 ∈ st.tags ∧
      (overwriteStep L field caseStyle interactive force st entry).tags =
        st.tags.insert entry.1 (overwriteNewVal L field caseStyle entry.2) ∧
      (overwriteStep L field caseStyle interactive force st entry).changed = true) := by
  cases hl : st.tags.lookup entry.1 with
  | none => left; simp [overwriteStep, hl]
  | some current =>
    have hm : entry.1 ∈ st.tags := Finmap.mem_of_lookup_eq_some hl
    cases hu : (overwriteGo L field caseStyle interactive force st entry.1 entry.2 current).1
    · left; simp [overwriteStep, hl, hu]
    · by_cases hc : current =
          (if entry.2 = [] then defaultTagValue L field caseStyle else entry.2)
      · left; simp [overwriteStep, hl, hu, ← hc]
      · right
        exact ⟨hm, by simp [overwriteStep, hl, hu, hc, overwriteNewVal],
          by simp [overwriteStep, hl, hu, hc]⟩

/-- C16: an overwrite string is split at its first `=`: without `=` it is the key and the
value is empty; otherwise the key is the text before the first `=` and the value is all the
text after it, further `=` included; the pair is what `overwriteMap` holds for the key. The
overwrite step reads the empty value as `defaultTagValue field caseStyle`: for a key the map
holds it stores the default when `interactive` is false or `force` is true, and under every
policy the key ends with its old value or the default. -/
theorem overwrite_directive_parsing (L : Libs) (field : Field) (caseStyle : Str)
    (interactive force : Bool) :
    (∀ ot, '=' ∉ ot → splitOverwrite ot = (ot, [])) ∧
    (∀ a b, '=' ∉ a → splitOverwrite (a ++ '=' :: b) = (a, b)) ∧
    (∀ overwriteTags ot, (overwriteMap (overwriteTags ++ [ot])).lookup (splitOverwrite ot).1 =
      some (splitOverwrite ot).2) ∧
    (∀ st k c, st.tags.lookup k = some c → (interactive = false ∨ force = true) →
      (overwriteStep L field caseStyle interactive force st (k, [])).tags.lookup k =
        some (defaultTagValue L field caseStyle)) ∧
    (∀ st k c, st.tags.lookup k = some c →
      (overwriteStep L field caseStyle interactive force st (k, [])).tags.lookup k = some c ∨
      (overwriteStep L field caseStyle interactive force st (k, [])).tags.lookup k =
        some (defaultTagValue L field caseStyle)) ∧
    splitOverwrite "json=a=b".toList = ("json".toList, "a=b".toList) ∧
    splitOverwrite "json".toList = ("json".toList, []) ∧
    splitOverwrite "json=".toList = ("json".toList, []) ∧
    (processField wordLibs "camelCase".toList false false [] [] [splitOverwrite "json".toList]
      { names := ["Name".toList], tag := some "\x60json:\"full_name\"\x60".toList }
      false [] []).1.tag = some "\x60json:\"name\"\x60".toList := by
  have hnv : overwriteNewVal L field caseStyle [] = defaultTagValue L field caseStyle := by
    simp [overwriteNewVal]
  refine ⟨splitOverwrite_without_eq, splitOverwrite_at_eq, overwriteMap_last, ?_, ?_,
    by decide, by decide, by decide, by decide⟩
  · intro st k c h hq
    rw [overwriteStep_quiet_lookup L field caseStyle interactive force st k [] c h hq, hnv]
  · intro st k c h
    rcases overwriteStep_cases L field caseStyle interactive force st (k, []) with
      ⟨h1, _⟩ | ⟨_, h1, _⟩
    · left; rw [h1]; exact h
    · right; rw [h1, hnv]; exact Finmap.lookup_insert _

/-! ## The case style and the confirmation -/

/-- C17: `defaultTagValue` converts the field's name with `strcase.ToSnake` when the
lower-cased style is `snake` or `snake_case`, with `strcase.ToKebab` when it is `kebab` or
`kebab-case`, and with `strcase.ToLowerCamel` for every other style; styles with the same
lower-casing give the same value; a field without names is converted from the empty string.
With the ASCII lower-casing, `camel`, `camelCase`, the empty style and `pascal` are converted
with `strcase.ToLowerCamel`, `SNAKE_CASE` with `strcase.ToSnake` and `Kebab` with
`strcase.ToKebab`. -/
theorem case_style_selection (L : Libs) (field : Field) :
    (∀ s, (L.toLower s = "snake".toList ∨ L.toLower s = "snake_case".toList) →
      defaultTagValue L field s = L.toSnake (fieldName field)) ∧
    (∀ s, (L.toLower s = "kebab".toList ∨ L.toLower s = "kebab-case".toList) →
      defaultTagValue L field s = L.toKebab (fieldName field)) ∧
    (∀ s, L.toLower s ≠ "snake".toList → L.toLower s ≠ "snake_case".toList →
      L.toLower s ≠ "kebab".toList → L.toLower s ≠ "kebab-case".toList →
      defaultTagValue L field s = L.toLowerCamel (fieldName field)) ∧
    (∀ s1 s2, L.toLower s1 = L.toLower s2 →
      defaultTagValue L field s1 = defaultTagValue L field s2) ∧
    (field.names = [] → fieldName field = [] ∧
      ∀ s, defaultTagValue L field s = L.toSnake [] ∨ defaultTagValue L field s = L.toKebab [] ∨
        defaultTagValue L field s = L.toLowerCamel []) ∧
    (L.toLower = asciiLower →
      defaultTagValue L field "camel".toList = L.toLowerCamel (fieldName field) ∧
      defaultTagValue L field "camelCase".toList = L.toLowerCamel (fieldName field) ∧
      defaultTagValue L field [] = L.toLowerCamel (fieldName field) ∧
      defaultTagValue L field "pascal".toList = L.toLowerCamel (fieldName field) ∧
      defaultTagValue L field "SNAKE_CASE".toList = L.toSnake (fieldName field) ∧
      defaultTagValue L field "Snake".toList = L.toSnake (fieldName field) ∧
      defaultTagValue L field "Kebab".toList = L.toKebab (fieldName field) ∧
      defaultTagValue L field "KEBAB-case".toList = L.toKebab (fieldName field)) := by
  refine ⟨?_, ?_, ?_, ?_, ?_, ?_⟩
  · intro s h
    unfold defaultTagValue
    simp only [h, if_true]
  · intro s h
    have h1 : ¬(L.toLower s = "snake".toList ∨ L.toLower s = "snake_case".toList) := by
      rcases h with h | h <;> rw [h] <;> decide
    unfold defaultTagValue
    simp only [h1, h, if_true, if_false]
  · intro s h1 h2 h3 h4
    unfold defaultTagValue
    simp only [h1, h2, h3, h4, or_self, if_false]
  · intro s1 s2 h
    unfold defaultTagValue
    simp only [h]
  · intro hn
    have hf : fieldName field = [] := by
      unfold fieldName; rw [hn]
    refine ⟨hf, fun s => ?_⟩
    unfold defaultTagValue
    simp only [hf]
    split_ifs
    · exact Or.inl rfl
    · exact Or.inr (Or.inl rfl)
    · exact Or.inr (Or.inr rfl)
  · intro hl
    unfold defaultTagValue
    simp only [hl]
    refine ⟨?_, ?_, ?_, ?_, ?_, ?_, ?_, ?_⟩ <;> rfl

/-- C18: with `interactive` true and `force` false, the add directive for a key `k` that the
map holds with a value `c` other than the default prints its question and reads one line.
When the line, trimmed and lower-cased, is `y` or `yes`, `k` is set to the default and the
`changed` flag is set; for every other line, and when there is no line to read, the map and
the flag stay as they were. -/
theorem interactive_add_asks (L : Libs) (field : Field) (caseStyle : Str)
    (st : State) (k c : Str)
    (h : st.tags.lookup k = some c) (hc : c ≠ defaultTagValue L field caseStyle) :
    (∀ line rest, st.stdin = line :: rest →
      ((L.toLower (L.trimSpace line) = "y".toList ∨
          L.toLower (L.trimSpace line) = "yes".toList) →
        (addStep L field caseStyle true false st k).tags.lookup k =
            some (defaultTagValue L field caseStyle) ∧
          (addStep L field caseStyle true false st k).changed = true) ∧
      (¬(L.toLower (L.trimSpace line) = "y".toList ∨
          L.toLower (L.trimSpace line) = "yes".toList) →
        (addStep L field caseStyle true false st k).tags = st.tags ∧
          (addStep L field caseStyle true false st k).changed = st.changed) ∧
      (addStep L field caseStyle true false st k).stdin = rest) ∧
    (st.stdin = [] →
      (addStep L field caseStyle true false st k).tags = st.tags ∧
        (addStep L field caseStyle true false st k).changed = st.changed ∧
        (addStep L field caseStyle true false st k).stdin = []) ∧
    (addStep L field caseStyle true false st k).stdout =
      st.stdout ++ [addConfirmText (fieldName field) k c (defaultTagValue L field caseStyle)] := by
  have e1 : "y".toList = ['y'] := rfl
  have e2 : "yes".toList = ['y', 'e', 's'] := rfl
  rw [e1, e2]
  refine ⟨?_, ?_, ?_⟩
  · intro line rest hs
    refine ⟨?_, ?_, ?_⟩
    · intro hy
      simp [addStep, h, hc, addUpdate, confirmUpdate, scanLine, print, hs, hy,
        Finmap.lookup_insert]
    · intro hn
      have hn' := not_or.mp hn
      simp [addStep, h, hc, addUpdate, confirmUpdate, scanLine, print, hs, hn'.1, hn'.2]
    · by_cases hy : L.toLower (L.trimSpace line) = ['y'] ∨
          L.toLower (L.trimSpace line) = ['y', 'e', 's']
      · simp [addStep, h, hc, addUpdate, confirmUpdate, scanLine, print, hs, hy]
      · have hn' := not_or.mp hy
        simp [addStep, h, hc, addUpdate, confirmUpdate, scanLine, print, hs, hn'.1, hn'.2]
  · intro hs
    simp [addStep, h, hc, addUpdate, confirmUpdate, scanLine, print, hs]
  · cases hs : st.stdin with
    | nil => simp [addStep, h, hc, addUpdate, confirmUpdate, scanLine, print, hs]
    | cons line rest =>
      by_cases hy : L.toLower (L.trimSpace line) = ['y'] ∨
          L.toLower (L.trimSpace line) = ['y', 'e', 's']
      · simp [addStep, h, hc, addUpdate, confirmUpdate, scanLine, print, hs, hy]
      · have hn' := not_or.mp hy
        simp [addStep, h, hc, addUpdate, confirmUpdate, scanLine, print, hs, hn'.1, hn'.2]

/-- C18 at the field `Name` with tag `json:"full_name"`, `add=[json]` and the answer
` Yes `: the key is set to `name`. -/
theorem interactive_add_asks_witness :
    (start "json:\"full_name\"".toList [" Yes ".toList]).tags.lookup "json".toList =
      some "full_name".toList ∧
    "full_name".toList ≠ defaultTagValue wordLibs nameField "camelCase".toList ∧
    ((∀ line rest, (start "json:\"full_name\"".toList [" Yes ".toList]).stdin = line :: rest →
      ((wordLibs.toLower (wordLibs.trimSpace line) = "y".toList ∨
          wordLibs.toLower (wordLibs.trimSpace line) = "yes".toList) →
        (addStep wordLibs nameField "camelCase".toList true false
            (start "json:\"full_name\"".toList [" Yes ".toList]) "json".toList).tags.lookup
            "json".toList = some (defaultTagValue wordLibs nameField "camelCase".toList) ∧
          (addStep wordLibs nameField "camelCase".toList true false
            (start "json:\"full_name\"".toList [" Yes ".toList]) "json".toList).changed
            = true) ∧
      (¬(wordLibs.toLower (wordLibs.trimSpace line) = "y".toList ∨
          wordLibs.toLower (wordLibs.trimSpace line) = "yes".toList) →
        (addStep wordLibs nameField "camelCase".toList true false
            (start "json:\"full_name\"".toList [" Yes ".toList]) "json".toList).tags =
            (start "json:\"full_name\"".toList [" Yes ".toList]).tags ∧
          (addStep wordLibs nameField "camelCase".toList true false
            (start "json:\"full_name\"".toList [" Yes ".toList]) "json".toList).changed =
            (start "json:\"full_name\"".toList [" Yes ".toList]).changed) ∧
      (addStep wordLibs nameField "camelCase".toList true false
        (start "json:\"full_name\"".toList [" Yes ".toList]) "json".toList).stdin = rest) ∧
    ((start "json:\"full_name\"".toList [" Yes ".toList]).stdin = [] →
      (addStep wordLibs nameField "camelCase".toList true false
          (start "json:\"full_name\"".toList [" Yes ".toList]) "json".toList).tags =
          (start "json:\"full_name\"".toList [" Yes ".toList]).tags ∧
        (addStep wordLibs nameField "camelCase".toList true false
          (start "json:\"full_name\"".toList [" Yes ".toList]) "json".toList).changed =
          (start "json:\"full_name\"".toList [" Yes ".toList]).changed ∧
        (addStep wordLibs nameField "camelCase".toList true false
          (start "json:\"full_name\"".toList [" Yes ".toList]) "json".toList).stdin = []) ∧
    (addStep wordLibs nameField "camelCase".toList true false
        (start "json:\"full_name\"".toList [" Yes ".toList]) "json".toList).stdout =
      (start "json:\"full_name\"".toList [" Yes ".toList]).stdout ++
        [addConfirmText (fieldName nameField) "json".toList "full_name".toList
          (defaultTagValue wordLibs nameField "camelCase".toList)]) ∧
    buildTag (addStep wordLibs nameField "camelCase".toList true false
      (start "json:\"full_name\"".toList [" Yes ".toList]) "json".toList).tags =
      "json:\"name\"".toList ∧
    buildTag (addStep wordLibs nameField "camelCase".toList true false
      (start "json:\"full_name\"".toList ["no".toList]) "json".toList).tags =
      "json:\"full_name\"".toList ∧
    buildTag (addStep wordLibs nameField "camelCase".toList true false
      (start "json:\"full_name\"".toList []) "json".toList).tags =
      "json:\"full_name\"".toList :=
  ⟨by decide, by decide,
    interactive_add_asks wordLibs nameField "camelCase".toList
      (start "json:\"full_name\"".toList [" Yes ".toList]) "json".toList "full_name".toList
      (by decide) (by decide),
    by decide, by decide, by decide⟩

/-! ## The resolved map under force, without interaction -/

theorem addStep_forced_lookup (L : Libs) (field : Field) (caseStyle : Str)
    (st : State) (key a : Str) :
    (addStep L field caseStyle false true st key).tags.lookup a =
      if a = key then some (defaultTagValue L field caseStyle) else st.tags.lookup a := by
  by_cases ha : a = key
  · subst ha
    rw [if_pos rfl]
    exact addStep_force_lookup L field caseStyle false st a (Or.inl rfl)
  · rw [if_neg ha]
    exact addStep_lookup_ne _ _ _ _ _ _ _ _ ha

theorem addLoop_forced_lookup (L : Libs) (field : Field) (caseStyle : Str)
    (addTags : List Str) (st : State) (a : Str) :
    (addLoop L field caseStyle false true addTags st).tags.lookup a =
      if a ∈ addTags then some (defaultTagValue L field caseStyle) else st.tags.lookup a := by
  induction addTags generalizing st with
  | nil => simp [addLoop]
  | cons key rest ih =>
    have h := ih (addStep L field caseStyle false true st key)
    simp only [addLoop, List.foldl_cons] at h ⊢
    rw [h, addStep_forced_lookup]
    by_cases h1 : a ∈ rest
    · simp [h1]
    · by_cases h2 : a = key
      · simp [h2]
      · simp [h1, h2]

theorem overwriteStep_quiet_lookup_all (L : Libs) (field : Field) (caseStyle : Str)
    (interactive force : Bool) (st : State) (e : Str × Str) (a : Str)
    (hq : interactive = false ∨ force = true) :
    (overwriteStep L field caseStyle interactive force st e).tags.lookup a =
      if a = e.1 then (st.tags.lookup a).map (fun _ => overwriteNewVal L field caseStyle e.2)
      else st.tags.lookup a := by
  by_cases ha : a = e.1
  · subst ha
    rw [if_pos rfl]
    cases hl : st.tags.lookup e.1 with
    | none =>
      rw [overwriteStep_absent _ _ _ _ _ _ _ hl, hl]
      rfl
    | some c =>
      exact overwriteStep_quiet_lookup L field caseStyle interactive force st e.1 e.2 c hl hq
  · rw [if_neg ha]
    exact overwriteStep_lookup_ne _ _ _ _ _ _ _ _ ha

theorem overwriteLoop_quiet_lookup_mem (L : Libs) (field : Field) (caseStyle : Str)
    (interactive force : Bool) (entries : List (Str × Str)) (st : State) (e : Str × Str)
    (hq : interactive = false ∨ force = true) (hnd : (entries.map Prod.fst).Nodup)
    (he : e ∈ entries) :
    (overwriteLoop L field caseStyle interactive force entries st).tags.lookup e.1 =
      (st.tags.lookup e.1).map (fun _ => overwriteNewVal L field caseStyle e.2) := by
  induction entries generalizing st with
  | nil => simp at he
  | cons x rest ih =>
    rw [List.map_cons, List.nodup_cons] at hnd
    have hstep : overwriteLoop L field caseStyle interactive force (x :: rest) st =
        overwriteLoop L field caseStyle interactive force rest
          (overwriteStep L field caseStyle interactive force st x) := rfl
    rw [hstep]
    rcases List.mem_cons.mp he with h1 | h1
    · subst h1
      rw [overwriteLoop_lookup_of_not_mem _ _ _ _ _ _ _ _ hnd.1,
        overwriteStep_quiet_lookup_all _ _ _ _ _ _ _ _ hq, if_pos rfl]
    · have hne : e.1 ≠ x.1 := by
        intro heq
        exact hnd.1 (heq ▸ List.mem_map_of_mem Prod.fst h1)
      rw [ih _ hnd.2 h1, overwriteStep_quiet_lookup_all _ _ _ _ _ _ _ _ hq, if_neg hne]

/-- The value a key has after delete and add, under force and without interaction. -/
theorem addLoop_deleteLoop_forced_lookup (L : Libs) (field : Field) (caseStyle : Str)
    (addTags deleteTags : List Str) (st : State) (a : Str) :
    (addLoop L field caseStyle false true addTags (deleteLoop deleteTags st)).tags.lookup a =
      if a ∈ addTags then some (defaultTagValue L field caseStyle)
      else if a ∈ deleteTags then none else st.tags.lookup a := by
  rw [addLoop_forced_lookup, deleteLoop_lookup]

theorem resolve_forced_lookup_not_mem (L : Libs) (field : Field) (caseStyle : Str)
    (addTags deleteTags : List Str) (entries : List (Str × Str)) (st : State) (a : Str)
    (ha : a ∉ entries.map Prod.fst) :
    (resolve L field caseStyle false true addTags deleteTags entries st).tags.lookup a =
      if a ∈ addTags then some (defaultTagValue L field caseStyle)
      else if a ∈ deleteTags then none else st.tags.lookup a := by
  unfold resolve
  rw [overwriteLoop_lookup_of_not_mem _ _ _ _ _ _ _ _ ha, addLoop_deleteLoop_forced_lookup]

theorem resolve_forced_lookup_mem (L : Libs) (field : Field) (caseStyle : Str)
    (addTags deleteTags : List Str) (entries : List (Str × Str)) (st : State) (e : Str × Str)
    (hnd : (entries.map Prod.fst).Nodup) (he : e ∈ entries) :
    (resolve L field caseStyle false true addTags deleteTags entries st).tags.lookup e.1 =
      (if e.1 ∈ addTags then some (defaultTagValue L field caseStyle)
        else if e.1 ∈ deleteTags then none else st.tags.lookup e.1).map
        (fun _ => overwriteNewVal L field caseStyle e.2) := by
  unfold resolve
  rw [overwriteLoop_quiet_lookup_mem _ _ _ _ _ _ _ _ (Or.inl rfl) hnd he,
    addLoop_deleteLoop_forced_lookup]

/-- Under force and without interaction the three loops, run on the map they produced,
produce it again. -/
theorem resolve_forced_idem (L : Libs) (field : Field) (caseStyle : Str)
    (addTags deleteTags : List Str) (entries : List (Str × Str)) (st st' : State)
    (hnd : (entries.map Prod.fst).Nodup)
    (h : st'.tags = (resolve L field caseStyle false true addTags deleteTags entries st).tags) :
    (resolve L field caseStyle false true addTags deleteTags entries st').tags =
      (resolve L field caseStyle false true addTags deleteTags entries st).tags := by
  apply Finmap.ext_lookup
  intro a
  by_cases ha : a ∈ entries.map Prod.fst
  · obtain ⟨e, he, rfl⟩ := List.mem_map.mp ha
    rw [resolve_forced_lookup_mem _ _ _ _ _ _ st' _ hnd he,
      resolve_forced_lookup_mem _ _ _ _ _ _ st _ hnd he]
    by_cases h1 : e.1 ∈ addTags
    · simp only [h1, if_true]
    · by_cases h2 : e.1 ∈ deleteTags
      · simp only [h1, h2, if_true, if_false]
      · simp only [h1, h2, if_false]
        rw [h, resolve_forced_lookup_mem _ _ _ _ _ _ st _ hnd he]
        simp only [h1, h2, if_false]
        cases st.tags.lookup e.1 <;> rfl
  · rw [resolve_forced_lookup_not_mem _ _ _ _ _ _ st' _ ha,
      resolve_forced_lookup_not_mem _ _ _ _ _ _ st _ ha]
    by_cases h1 : a ∈ addTags
    · simp only [h1, if_true]
    · by_cases h2 : a ∈ deleteTags
      · simp only [h1, h2, if_true, if_false]
      · simp only [h1, h2, if_false]
        rw [h, resolve_forced_lookup_not_mem _ _ _ _ _ _ st _ ha]
        simp only [h1, h2, if_false]

/-! ## Maps that survive the round trip -/

theorem parseTag_parsable (s : Str) : Parsable (parseTag s) :=
  fun k v h => parseTag_words s k v h

theorem parseTag_buildTag_of_parsable (m : TagMap) (h : Parsable m) :
    parseTag (buildTag m) = m := by
  apply parseTag_buildTag_of_words
  · intro k hk
    obtain ⟨v, hv⟩ := Finmap.mem_iff.mp hk
    exact ⟨(h k v hv).1, (h k v hv).2.1⟩
  · intro k v hv
    exact (h k v hv).2.2

theorem overwriteNewVal_no_quote (L : Libs) (field : Field) (caseStyle : Str) (v : Str)
    (hdv : '"' ∉ defaultTagValue L field caseStyle) (hv : '"' ∉ v) :
    '"' ∉ overwriteNewVal L field caseStyle v := by
  unfold overwriteNewVal
  split_ifs
  · exact hdv
  · exact hv

theorem resolve_forced_parsable (L : Libs) (field : Field) (caseStyle : Str)
    (addTags deleteTags : List Str) (entries : List (Str × Str)) (st : State)
    (hst : Parsable st.tags)
    (hA : ∀ k ∈ addTags, k ≠ [] ∧ ∀ c ∈ k, isWordChar c = true)
    (hdv : '"' ∉ defaultTagValue L field caseStyle)
    (hE : ∀ e ∈ entries, '"' ∉ e.2)
    (hnd : (entries.map Prod.fst).Nodup) :
    Parsable (resolve L field caseStyle false true addTags deleteTags entries st).tags := by
  have hbase : ∀ a v,
      (if a ∈ addTags then some (defaultTagValue L field caseStyle)
        else if a ∈ deleteTags then none else st.tags.lookup a) = some v →
      a ≠ [] ∧ (∀ c ∈ a, isWordChar c = true) ∧ '"' ∉ v := by
    intro a v h
    by_cases h1 : a ∈ addTags
    · rw [if_pos h1] at h
      have : defaultTagValue L field caseStyle = v := Option.some.inj h
      exact ⟨(hA a h1).1, (hA a h1).2, this ▸ hdv⟩
    · rw [if_neg h1] at h
      by_cases h2 : a ∈ deleteTags
      · rw [if_pos h2] at h; exact absurd h (by simp)
      · rw [if_neg h2] at h; exact hst a v h
  intro a v h
  by_cases ha : a ∈ entries.map Prod.fst
  · obtain ⟨e, he, rfl⟩ := List.mem_map.mp ha
    rw [resolve_forced_lookup_mem _ _ _ _ _ _ _ _ hnd he] at h
    cases hb : (if e.1 ∈ addTags then some (defaultTagValue L field caseStyle)
        else if e.1 ∈ deleteTags then none else st.tags.lookup e.1) with
    | none => rw [hb] at h; exact absurd h (by simp)
    | some c =>
      rw [hb] at h
      have hv : overwriteNewVal L field caseStyle e.2 = v := Option.some.inj h
      have hk := hbase e.1 c hb
      exact ⟨hk.1, hk.2.1, hv ▸ overwriteNewVal_no_quote _ _ _ _ hdv (hE e he)⟩
  · rw [resolve_forced_lookup_not_mem _ _ _ _ _ _ _ _ ha] at h
    exact hbase a v h

/-! ## The tag literal read back -/

theorem trimBackquote_wrap (B B1 B2 : Str) (c d : Char) (h1 : B = c :: B1)
    (h2 : B = B2 ++ [d]) (hc : c ≠ '\x60') (hd : d ≠ '\x60') :
    trimBackquote ("\x60".toList ++ B ++ "\x60".toList) = B := by
  have hq : "\x60".toList = ['\x60'] := rfl
  have hc' : (c == '\x60') = false := by simp [hc]
  have hd' : (d == '\x60') = false := by simp [hd]
  have e1 : (['\x60'] ++ B ++ ['\x60']).dropWhile (fun c => c == '\x60') = B ++ ['\x60'] := by
    rw [h1]
    simp [List.dropWhile, hc']
  have e2 : (B ++ ['\x60']).reverse.dropWhile (fun c => c == '\x60') = B.reverse := by
    rw [h2]
    simp [List.dropWhile, hd']
  unfold trimBackquote
  rw [hq, e1, e2, List.reverse_reverse]

theorem intercalate_prefix (sep x : Str) (l : List Str) :
    ∃ r, sep.intercalate (x :: l) = x ++ r := by
  cases l with
  | nil => exact ⟨[], by rw [intercalate_one, List.append_nil]⟩
  | cons y ys => exact ⟨_, intercalate_two sep x y ys⟩

theorem intercalate_suffix (sep : Str) (q : Char) (l : List Str) (x : Str)
    (h : ∀ y ∈ x :: l, ∃ z, y = z ++ [q]) : ∃ z, sep.intercalate (x :: l) = z ++ [q] := by
  induction l generalizing x with
  | nil =>
    rw [intercalate_one]
    exact h x (List.mem_cons_self _ _)
  | cons y ys ih =>
    obtain ⟨z, hz⟩ := ih y (fun w hw => h w (List.mem_cons_of_mem _ hw))
    rw [intercalate_two, hz]
    exact ⟨x ++ (sep ++ z), by simp⟩

theorem renderEntry_suffix (k v : Str) : ∃ z, renderEntry k v = z ++ ['"'] :=
  ⟨k ++ ":\"".toList ++ v, rfl⟩

/-- A non-empty tag string written from a map whose keys are words starts with a word
character and ends with a double quote. -/
theorem buildTag_ends (m : TagMap) (hp : Parsable m) (hne : buildTag m ≠ []) :
    ∃ c B1 B2, buildTag m = c :: B1 ∧ buildTag m = B2 ++ ['"'] ∧ c ≠ '\x60' := by
  unfold buildTag at hne ⊢
  cases hks : sortStrings m.keys with
  | nil => rw [hks] at hne; exact absurd rfl hne
  | cons k ks =>
    have hk : k ∈ m := Finmap.mem_keys.mp ((mem_sortStrings _ _).mp (hks ▸ List.mem_cons_self _ _))
    obtain ⟨v, hv⟩ := Finmap.mem_iff.mp hk
    obtain ⟨hk1, hk2, -⟩ := hp k v hv
    rw [List.map_cons]
    obtain ⟨r, hr⟩ := intercalate_prefix " ".toList (renderEntry k ((m.lookup k).getD []))
      (ks.map (fun key => renderEntry key ((m.lookup key).getD [])))
    obtain ⟨z, hz⟩ := intercalate_suffix " ".toList '"'
      (ks.map (fun key => renderEntry key ((m.lookup key).getD [])))
      (renderEntry k ((m.lookup k).getD [])) (by
        intro y hy
        rcases List.mem_cons.mp hy with h1 | h1
        · rw [h1]; exact renderEntry_suffix _ _
        · obtain ⟨key, _, rfl⟩ := List.mem_map.mp h1
          exact renderEntry_suffix _ _)
    cases k with
    | nil => exact absurd rfl hk1
    | cons c cs =>
      refine ⟨c, cs ++ ":\"".toList ++ (m.lookup (c :: cs)).getD [] ++ "\"".toList ++ r, z,
        ?_, hz, ?_⟩
      · rw [hr]; rfl
      · intro e
        have := hk2 c (List.mem_cons_self _ _)
        rw [e] at this
        exact absurd this (by decide)

theorem tagValue_of_tag (f : Field) (m : TagMap) (hp : Parsable m)
    (h : f.tag = if buildTag m = [] then none
      else some ("\x60".toList ++ buildTag m ++ "\x60".toList)) :
    tagValue f = buildTag m := by
  unfold tagValue
  by_cases hb : buildTag m = []
  · rw [if_pos hb] at h
    rw [h, hb]
  · rw [if_neg hb] at h
    rw [h]
    obtain ⟨c, B1, B2, h1, h2, hc⟩ := buildTag_ends m hp hb
    exact trimBackquote_wrap _ B1 B2 c '"' h1 h2 hc (by decide)

/-! ## The second pass -/

theorem addLoop_at_default (L : Libs) (field : Field) (caseStyle : Str)
    (interactive force : Bool) (addTags : List Str) (st : State)
    (h : ∀ k ∈ addTags, st.tags.lookup k = some (defaultTagValue L field caseStyle)) :
    addLoop L field caseStyle interactive force addTags st = st := by
  induction addTags with
  | nil => rfl
  | cons key rest ih =>
    simp only [addLoop, List.foldl_cons] at ih ⊢
    rw [addStep_default _ _ _ _ _ _ _ (h key (List.mem_cons_self _ _))]
    exact ih (fun k hk => h k (List.mem_cons_of_mem _ hk))

theorem overwriteLoop_fixed (L : Libs) (field : Field) (caseStyle : Str)
    (interactive force : Bool) (entries : List (Str × Str)) (st : State)
    (h : ∀ e ∈ entries, overwriteStep L field caseStyle interactive force st e = st) :
    overwriteLoop L field caseStyle interactive force entries st = st := by
  induction entries with
  | nil => rfl
  | cons e rest ih =>
    simp only [overwriteLoop, List.foldl_cons] at ih ⊢
    rw [h e (List.mem_cons_self _ _)]
    exact ih (fun x hx => h x (List.mem_cons_of_mem _ hx))

theorem overwriteNewVal_of_default (L : Libs) (field : Field) (caseStyle : Str) (v : Str)
    (h : v = [] ∨ v = defaultTagValue L field caseStyle) :
    overwriteNewVal L field caseStyle v = defaultTagValue L field caseStyle := by
  unfold overwriteNewVal
  rcases h with h | h
  · rw [if_pos h]
  · split_ifs
    · rfl
    · exact h

/-- Under force and without interaction, the three loops leave a state alone whose map they
produced, when no add key is deleted and no overwrite entry gives an add key another value
than the default. -/
theorem resolve_forced_again (L : Libs) (field : Field) (caseStyle : Str)
    (addTags deleteTags : List Str) (entries : List (Str × Str)) (st st' : State)
    (hnd : (entries.map Prod.fst).Nodup)
    (h : st'.tags = (resolve L field caseStyle false true addTags deleteTags entries st).tags)
    (hAD : ∀ k ∈ addTags, k ∉ deleteTags)
    (hEA : ∀ e ∈ entries, e.1 ∈ addTags →
      e.2 = [] ∨ e.2 = defaultTagValue L field caseStyle) :
    resolve L field caseStyle false true addTags deleteTags entries st' = st' := by
  have hdel : deleteLoop deleteTags st' = st' := by
    apply deleteLoop_absent
    intro k hk
    have hkA : k ∉ addTags := fun hA => hAD k hA hk
    rw [← Finmap.lookup_eq_none, h]
    by_cases hke : k ∈ entries.map Prod.fst
    · obtain ⟨e, he, rfl⟩ := List.mem_map.mp hke
      rw [resolve_forced_lookup_mem _ _ _ _ _ _ _ _ hnd he, if_neg hkA, if_pos hk]
      rfl
    · rw [resolve_forced_lookup_not_mem _ _ _ _ _ _ _ _ hke, if_neg hkA, if_pos hk]
  have hadd : addLoop L field caseStyle false true addTags st' = st' := by
    apply addLoop_at_default
    intro k hk
    rw [h]
    by_cases hke : k ∈ entries.map Prod.fst
    · obtain ⟨e, he, rfl⟩ := List.mem_map.mp hke
      rw [resolve_forced_lookup_mem _ _ _ _ _ _ _ _ hnd he, if_pos hk, Option.map_some',
        overwriteNewVal_of_default _ _ _ _ (hEA e he hk)]
    · rw [resolve_forced_lookup_not_mem _ _ _ _ _ _ _ _ hke, if_pos hk]
  have hover : overwriteLoop L field caseStyle false true entries st' = st' := by
    apply overwriteLoop_fixed
    intro e he
    cases hl : st'.tags.lookup e.1 with
    | none => exact overwriteStep_absent _ _ _ _ _ _ _ hl
    | some c =>
      have hc : c = overwriteNewVal L field caseStyle e.2 := by
        have h1 := hl
        rw [h, resolve_forced_lookup_mem _ _ _ _ _ _ _ _ hnd he] at h1
        cases hb : (if e.1 ∈ addTags then some (defaultTagValue L field caseStyle)
            else if e.1 ∈ deleteTags then none else st.tags.lookup e.1) with
        | none => rw [hb] at h1; exact absurd h1 (by simp)
        | some c' =>
          rw [hb] at h1
          exact (Option.some.inj h1).symm
      have hs := overwriteStep_quiet L field caseStyle false true st' e.1 e.2 c hl (Or.inl rfl)
      rw [if_neg (not_not.mpr hc)] at hs
      exact hs
  unfold resolve
  rw [hdel, hadd, hover]

theorem resolve_tag_irrelevant (L : Libs) (field : Field) (t : Option Str) (caseStyle : Str)
    (interactive force : Bool) (addTags deleteTags : List Str) (entries : List (Str × Str))
    (st : State) :
    resolve L { field with tag := t } caseStyle interactive force addTags deleteTags entries st
      = resolve L field caseStyle interactive force addTags deleteTags entries st :=
  rfl

theorem processField_field (L : Libs) (caseStyle : Str) (interactive force : Bool)
    (addTags deleteTags : List Str) (entries : List (Str × Str))
    (field : Field) (changed : Bool) (stdin stdout : List Str) :
    (processField L caseStyle interactive force addTags deleteTags entries field changed
        stdin stdout).1 =
      { field with tag := (processField L caseStyle interactive force addTags deleteTags
          entries field changed stdin stdout).1.tag } := by
  unfold processField
  simp only
  split_ifs <;> rfl

/-- The tag map of the second pass over a field, under force and without interaction, is
the tag map of the first. -/
theorem processField_forced_twice (L : Libs) (caseStyle : Str)
    (addTags deleteTags : List Str) (entries : List (Str × Str))
    (field : Field) (changed changed' : Bool) (stdin stdout stdin' stdout' : List Str)
    (hA : ∀ k ∈ addTags, k ≠ [] ∧ ∀ c ∈ k, isWordChar c = true)
    (hdv : '"' ∉ defaultTagValue L field caseStyle)
    (hE : ∀ e ∈ entries, '"' ∉ e.2)
    (hnd : (entries.map Prod.fst).Nodup) :
    parseTag (tagValue (processField L caseStyle false true addTags deleteTags entries field
        changed stdin stdout).1) =
      (processField L caseStyle false true addTags deleteTags entries field changed stdin
        stdout).2.tags ∧
    (processField L caseStyle false true addTags deleteTags entries
        (processField L caseStyle false true addTags deleteTags entries field changed stdin
          stdout).1 changed' stdin' stdout').2 =
      resolve L field caseStyle false true addTags deleteTags entries
        { tags := (processField L caseStyle false true addTags deleteTags entries field
            changed stdin stdout).2.tags,
          changed := changed', stdin := stdin', stdout := stdout' } := by
  have hp : Parsable (processField L caseStyle false true addTags deleteTags entries field
      changed stdin stdout).2.tags := by
    rw [processField_state]
    exact resolve_forced_parsable _ _ _ _ _ _ _ (parseTag_parsable _) hA hdv hE hnd
  have htv : tagValue (processField L caseStyle false true addTags deleteTags entries field
      changed stdin stdout).1 =
      buildTag (processField L caseStyle false true addTags deleteTags entries field
        changed stdin stdout).2.tags := by
    apply tagValue_of_tag _ _ hp
    rw [processField_tag, processField_state]
  have hpt : parseTag (tagValue (processField L caseStyle false true addTags deleteTags
      entries field changed stdin stdout).1) =
      (processField L caseStyle false true addTags deleteTags entries field changed stdin
        stdout).2.tags := by
    rw [htv, parseTag_buildTag_of_parsable _ hp]
  refine ⟨hpt, ?_⟩
  rw [processField_state, hpt, processField_field, resolve_tag_irrelevant]

theorem processField_tag_of_state (L : Libs) (caseStyle : Str) (interactive force : Bool)
    (addTags deleteTags : List Str) (entries : List (Str × Str))
    (field : Field) (changed : Bool) (stdin stdout : List Str) :
    (processField L caseStyle interactive force addTags deleteTags entries field changed
        stdin stdout).1.tag =
      if buildTag (processField L caseStyle interactive force addTags deleteTags entries field
          changed stdin stdout).2.tags = []
      then none
      else some ("\x60".toList ++ buildTag (processField L caseStyle interactive force addTags
          deleteTags entries field changed stdin stdout).2.tags ++ "\x60".toList) := by
  rw [processField_tag, processField_state]

/-! ## The claims on running twice -/

/-- Counterexample to C19, on the tag string and on the flag. Under force and without
interaction, `add=[a-b]` on the field `Name` without a tag writes `a-b:"name"` in the first
pass and `a-b:"name" b:"name"` in the second; `delete=[json]` with `add=[json]` on the tag
`json:"name"` writes `json:"name"` in both passes and raises the flag in the second. -/
theorem rerun_is_not_a_noop :
    ((processField wordLibs "camelCase".toList false true ["a-b".toList] [] [] nameField
        false [] []).1.tag = some "\x60a-b:\"name\"\x60".toList ∧
      (processField wordLibs "camelCase".toList false true ["a-b".toList] [] []
        (processField wordLibs "camelCase".toList false true ["a-b".toList] [] [] nameField
          false [] []).1 false [] []).1.tag =
        some "\x60a-b:\"name\" b:\"name\"\x60".toList) ∧
    ((processField wordLibs "camelCase".toList false true ["json".toList] ["json".toList] []
        { names := ["Name".toList], tag := some "\x60json:\"name\"\x60".toList }
        false [] []).1.tag = some "\x60json:\"name\"\x60".toList ∧
      (processField wordLibs "camelCase".toList false true ["json".toList] ["json".toList] []
        (processField wordLibs "camelCase".toList false true ["json".toList] ["json".toList]
          [] { names := ["Name".toList], tag := some "\x60json:\"name\"\x60".toList }
          false [] []).1 false [] []).2.changed = true) := by
  decide

/-- C19, amended: with `force` true and `interactive` false, when every add key is a
non-empty word over `[0-9A-Za-z_]`, the default value and the overwrite values hold no
double quote and the overwrite entries are those of a map (each key once), the second pass
over a field leaves it as the first pass made it, tag string included. When moreover no add
key is listed in `deleteTags` and no overwrite entry gives an add key a non-empty value other
than the default, the second pass does not set the `changed` flag. -/
theorem rerun_keeps_tag (L : Libs) (caseStyle : Str)
    (addTags deleteTags : List Str) (entries : List (Str × Str))
    (field : Field) (changed changed' : Bool) (stdin stdout stdin' stdout' : List Str)
    (hA : ∀ k ∈ addTags, k ≠ [] ∧ ∀ c ∈ k, isWordChar c = true)
    (hdv : '"' ∉ defaultTagValue L field caseStyle)
    (hE : ∀ e ∈ entries, '"' ∉ e.2)
    (hnd : (entries.map Prod.fst).Nodup) :
    (processField L caseStyle false true addTags deleteTags entries
        (processField L caseStyle false true addTags deleteTags entries field changed stdin
          stdout).1 changed' stdin' stdout').1 =
      (processField L caseStyle false true addTags deleteTags entries field changed stdin
        stdout).1 ∧
    ((∀ k ∈ addTags, k ∉ deleteTags) →
      (∀ e ∈ entries, e.1 ∈ addTags → e.2 = [] ∨ e.2 = defaultTagValue L field caseStyle) →
      (processField L caseStyle false true addTags deleteTags entries
        (processField L caseStyle false true addTags deleteTags entries field changed stdin
          stdout).1 changed' stdin' stdout').2.changed = changed') := by
  obtain ⟨-, hst⟩ := processField_forced_twice L caseStyle addTags deleteTags entries field
    changed changed' stdin stdout stdin' stdout' hA hdv hE hnd
  have ht1 : (processField L caseStyle false true addTags deleteTags entries field changed
      stdin stdout).2.tags =
      (resolve L field caseStyle false true addTags deleteTags entries
        { tags := parseTag (tagValue field), changed := changed, stdin := stdin,
          stdout := stdout }).tags := by
    rw [processField_state]
  constructor
  · have htags : (processField L caseStyle false true addTags deleteTags entries
        (processField L caseStyle false true addTags deleteTags entries field changed stdin
          stdout).1 changed' stdin' stdout').2.tags =
        (processField L caseStyle false true addTags deleteTags entries field changed stdin
          stdout).2.tags := by
      rw [hst, ht1]
      exact resolve_forced_idem L field caseStyle addTags deleteTags entries _ _ hnd rfl
    have htag : (processField L caseStyle false true addTags deleteTags entries
        (processField L caseStyle false true addTags deleteTags entries field changed stdin
          stdout).1 changed' stdin' stdout').1.tag =
        (processField L caseStyle false true addTags deleteTags entries field changed stdin
          stdout).1.tag := by
      rw [processField_tag_of_state, htags, ← processField_tag_of_state]
    rw [processField_field, htag]
  · intro hAD hEA
    rw [hst]
    rw [resolve_forced_again L field caseStyle addTags deleteTags entries
      { tags := parseTag (tagValue field), changed := changed, stdin := stdin,
        stdout := stdout }
      { tags := (processField L caseStyle false true addTags deleteTags entries field changed
          stdin stdout).2.tags,
        changed := changed', stdin := stdin', stdout := stdout' } hnd ht1 hAD hEA]

/-- C19, amended, at the field `Name` with tag `xml:"a" json:"b"`, `add=[json,db]`,
`delete=[xml]` and `overwrite=[db]`. -/
theorem rerun_keeps_tag_witness :
    (∀ k ∈ ["json".toList, "db".toList], k ≠ [] ∧ ∀ c ∈ k, isWordChar c = true) ∧
    '"' ∉ defaultTagValue wordLibs
      { names := ["Name".toList], tag := some "\x60xml:\"a\" json:\"b\"\x60".toList }
      "camelCase".toList ∧
    (∀ e ∈ [("db".toList, ([] : Str))], '"' ∉ e.2) ∧
    ([("db".toList, ([] : Str))].map Prod.fst).Nodup ∧
    ((processField wordLibs "camelCase".toList false true ["json".toList, "db".toList]
        ["xml".toList] [("db".toList, ([] : Str))]
        (processField wordLibs "camelCase".toList false true ["json".toList, "db".toList]
          ["xml".toList] [("db".toList, ([] : Str))]
          { names := ["Name".toList], tag := some "\x60xml:\"a\" json:\"b\"\x60".toList }
          false [] []).1 true [] []).1 =
      (processField wordLibs "camelCase".toList false true ["json".toList, "db".toList]
        ["xml".toList] [("db".toList, ([] : Str))]
        { names := ["Name".toList], tag := some "\x60xml:\"a\" json:\"b\"\x60".toList }
        false [] []).1 ∧
    ((∀ k ∈ ["json".toList, "db".toList], k ∉ ["xml".toList]) →
      (∀ e ∈ [("db".toList, ([] : Str))], e.1 ∈ ["json".toList, "db".toList] →
        e.2 = [] ∨ e.2 = defaultTagValue wordLibs
          { names := ["Name".toList], tag := some "\x60xml:\"a\" json:\"b\"\x60".toList }
          "camelCase".toList) →
      (processField wordLibs "camelCase".toList false true ["json".toList, "db".toList]
        ["xml".toList] [("db".toList, ([] : Str))]
        (processField wordLibs "camelCase".toList false true ["json".toList, "db".toList]
          ["xml".toList] [("db".toList, ([] : Str))]
          { names := ["Name".toList], tag := some "\x60xml:\"a\" json:\"b\"\x60".toList }
          false [] []).1 true [] []).2.changed = true)) ∧
    (processField wordLibs "camelCase".toList false true ["json".toList, "db".toList]
      ["xml".toList] [("db".toList, ([] : Str))]
      { names := ["Name".toList], tag := some "\x60xml:\"a\" json:\"b\"\x60".toList }
      false [] []).1.tag = some "\x60db:\"name\" json:\"name\"\x60".toList :=
  ⟨by decide, by decide, by decide, by decide,
    rerun_keeps_tag wordLibs "camelCase".toList ["json".toList, "db".toList] ["xml".toList]
      [("db".toList, ([] : Str))]
      { names := ["Name".toList], tag := some "\x60xml:\"a\" json:\"b\"\x60".toList }
      false true [] [] [] [] (by decide) (by decide) (by decide) (by decide),
    by decide⟩

/-- C20: for every string `s`, well-formed or not, `parseTag (buildTag (parseTag s))` is
`parseTag s`; so writing the canonical form of a canonical form changes nothing, and every
map `parseTag` returns survives the round trip. The string
`junk a-b:"1" json:"x" json:"y` reads as `b ↦ 1, json ↦ x` and is written `b:"1" json:"x"`. -/
theorem canonical_form_is_fixed_point (s : Str) :
    parseTag (buildTag (parseTag s)) = parseTag s ∧
    buildTag (parseTag (buildTag (parseTag s))) = buildTag (parseTag s) ∧
    (∀ m : TagMap, m = parseTag s → parseTag (buildTag m) = m) ∧
    buildTag (parseTag "junk a-b:\"1\" json:\"x\" json:\"y".toList) =
      "b:\"1\" json:\"x\"".toList ∧
    parseTag (buildTag (parseTag "junk a-b:\"1\" json:\"x\" json:\"y".toList)) =
      parseTag "junk a-b:\"1\" json:\"x\" json:\"y".toList := by
  refine ⟨parseTag_buildTag_parseTag s, ?_, ?_, by decide, by decide⟩
  · rw [parseTag_buildTag_parseTag]
  · intro m hm
    rw [hm]
    exact parseTag_buildTag_parseTag s

end Gotag
